import Mathlib

/-!
Verification development for the polyglot-keeper synchronization engine.

The TypeScript sources are shallowly embedded: JSON trees become the
inductive `JValue` (string leaves, object containers with ordered field
lists, and `other` for the remaining JSON leaves — numbers, booleans,
null and arrays, which the tool treats as opaque leaves and never
recurses into), JavaScript records become association lists with
JS-assignment semantics (overwrite in place, else append), stateful
loops become pure recursions, and the asynchronous translation oracle
becomes an explicit function from (payload, locale, attempt index) to a
success or failure outcome.  Strings are processed through their
character lists where the source uses character-level scanning.
-/

namespace Polyglot

/-- JSON-like value as the tool sees it: string leaves are translatable
units, objects are ordered field lists, and every other JSON leaf
(number, boolean, null, array) is the opaque `other` — the source never
recurses into arrays (`!Array.isArray` guards) and treats them as
leaves. -/
inductive JValue where
  | str (s : String)
  | obj (fields : List (String × JValue))
  | other
deriving Repr

/-- Ordered field list of a JSON object. -/
abbrev Fields := List (String × JValue)

/-- JS property lookup `obj[k]` over an ordered key-value list (JS
objects have unique keys, so first match = only match). -/
def lookupRec {α : Type} (l : List (String × α)) (k : String) : Option α :=
  match l.find? (fun p => p.1 == k) with
  | some p => some p.2
  | none => none

/-- JS record assignment `obj[k] = v`: overwrite in place if the key
is present, otherwise append at the end (JS insertion order). -/
def recAssign {α : Type} (l : List (String × α)) (k : String) (v : α) :
    List (String × α) :=
  if l.any (fun p => p.1 == k) then
    l.map (fun p => if p.1 == k then (k, v) else p)
  else
    l ++ [(k, v)]

/-- JS property lookup on a field list. -/
def lookupField (fields : Fields) (k : String) : Option JValue :=
  lookupRec fields k

/-- JS record assignment on a field list. -/
def recAssignField (fields : Fields) (k : String) (v : JValue) : Fields :=
  recAssign fields k v

/-- Remove the field with the given key (JS `delete obj[k]`; a no-op
when the key is absent). -/
def removeField (fields : Fields) (k : String) : Fields :=
  fields.filter (fun p => p.1 != k)

/-- String-valued record (JS `Record<string, string>`), as an
association list in insertion order. -/
abbrev SRecord := List (String × String)

/-- Lookup in a string record (`rec[k]`, `undefined` when absent). -/
def lookupStr (rec : SRecord) (k : String) : Option String :=
  lookupRec rec k

/-- JS record assignment for string records. -/
def recAssignStr (rec : SRecord) (k v : String) : SRecord :=
  recAssign rec k v

/-- Split a character list at every dot, mirroring JS
`key.split(".")` (always at least one part; empty parts kept). -/
def splitDot : List Char → List (List Char)
  | [] => [[]]
  | c :: rest =>
    match splitDot rest with
    | [] => [[]]
    | p :: ps => if c = '.' then [] :: p :: ps else (c :: p) :: ps

/-- Dot-path key split into its segments (`key.split(".")`). -/
def splitKey (key : String) : List String :=
  (splitDot key.data).map (fun cs => String.mk cs)

/-- Inverse of `splitDot`: join segments with a dot (used to relate
distinct dot-path keys to distinct segment lists). -/
def joinDot : List (List Char) → List Char
  | [] => []
  | [p] => p
  | p :: q :: rest => p ++ '.' :: joinDot (q :: rest)

/-- Join a prefix and a key with a dot, mirroring
`prefix ? prefix + "." + key : key` from `extractKeys` (an empty
prefix is the falsy case). -/
def joinKey (pre k : String) : String :=
  if pre = "" then k else pre ++ "." ++ k

/-- Embedding of `extractKeys` (src/utils/index.ts): depth-first list
of dot-notation keys of all leaves; objects are recursed into, every
other value (strings, arrays, numbers, ...) contributes its own key. -/
def extractKeys : Fields → String → List String
  | [], _ => []
  | (k, JValue.obj sub) :: rest, pre =>
      extractKeys sub (joinKey pre k) ++ extractKeys rest pre
  | (k, _) :: rest, pre => joinKey pre k :: extractKeys rest pre

/-- Walk of `getNestedValue` over already-split path segments: stop
with `undefined` when an intermediate is absent or not an object, and
return the terminal value only when it is a string. -/
def getNestedValueParts (fields : Fields) : List String → Option String
  | [] => none
  | [p] =>
    match lookupField fields p with
    | some (JValue.str s) => some s
    | _ => none
  | p :: q :: rest =>
    match lookupField fields p with
    | some (JValue.obj sub) => getNestedValueParts sub (q :: rest)
    | _ => none

/-- Embedding of `getNestedValue` (src/utils/index.ts). -/
def getNestedValue (fields : Fields) (key : String) : Option String :=
  getNestedValueParts fields (splitKey key)

/-- Walk of `setNestedValue` over split segments: create (or overwrite
with `{}`) intermediate containers, then assign the final segment. -/
def setNestedValueParts (fields : Fields) : List String → JValue → Fields
  | [], _ => fields
  | [last], v => recAssignField fields last v
  | p :: q :: rest, v =>
    let sub : Fields :=
      match lookupField fields p with
      | some (JValue.obj s) => s
      | _ => []
    recAssignField fields p (JValue.obj (setNestedValueParts sub (q :: rest) v))

/-- Embedding of `setNestedValue` (src/utils/index.ts), as a pure
update returning the new tree. -/
def setNestedValue (fields : Fields) (key : String) (v : JValue) : Fields :=
  setNestedValueParts fields (splitKey key) v

/-- Embedding of `cleanupEmptyObjects` (src/utils/index.ts): recurse
into every object field, then drop fields whose object became empty;
non-object values (arrays included) are kept untouched. -/
def cleanupEmptyObjects : Fields → Fields
  | [] => []
  | (k, JValue.obj sub) :: rest =>
    let sub' := cleanupEmptyObjects sub
    if sub'.isEmpty then cleanupEmptyObjects rest
    else (k, JValue.obj sub') :: cleanupEmptyObjects rest
  | (k, v) :: rest => (k, v) :: cleanupEmptyObjects rest

/-- Walk of `deleteNestedKey` before the cleanup: descend through the
leading segments, returning `none` (TS early `return`, tree unchanged,
no cleanup) when an intermediate is absent or not a container, and
remove the final segment's field otherwise. -/
def deleteAtPath (fields : Fields) : List String → Option Fields
  | [] => none
  | [last] => some (removeField fields last)
  | p :: q :: rest =>
    match lookupField fields p with
    | some (JValue.obj sub) =>
      match deleteAtPath sub (q :: rest) with
      | some sub' => some (recAssignField fields p (JValue.obj sub'))
      | none => none
    | _ => none

/-- Embedding of `deleteNestedKey` (src/utils/index.ts): delete the
leaf, then run `cleanupEmptyObjects` over the whole tree; when the
descent hit a missing/non-container segment the function returned
early and no cleanup happens. -/
def deleteNestedKey (fields : Fields) (key : String) : Fields :=
  match deleteAtPath fields (splitKey key) with
  | some f => cleanupEmptyObjects f
  | none => fields

/-- Well-formedness of a JSON tree as a JS runtime value: at every
object level the keys are pairwise distinct (a JS object cannot hold
the same key twice). -/
def nodupKeys : Fields → Bool
  | [] => true
  | (k, JValue.obj sub) :: rest =>
    !(rest.any (fun p => p.1 == k)) && nodupKeys sub && nodupKeys rest
  | (k, _) :: rest => !(rest.any (fun p => p.1 == k)) && nodupKeys rest

/-- No object anywhere in the tree is empty (the post-condition of the
cleanup pass). -/
def noEmptyFields : Fields → Bool
  | [] => true
  | (_, JValue.obj sub) :: rest => !sub.isEmpty && noEmptyFields sub && noEmptyFields rest
  | _ :: rest => noEmptyFields rest

/-- Embedding of `reorderToMatchSource` (src/utils/index.ts) on field
lists: keep, in source order, exactly the source keys also present in
the target, recursing when both sides hold containers and taking the
target value otherwise. -/
def reorderToMatchSource : Fields → Fields → Fields
  | [], _ => []
  | (k, sv) :: rest, target =>
    match lookupField target k with
    | none => reorderToMatchSource rest target
    | some tv =>
      let v :=
        match sv, tv with
        | JValue.obj sfs, JValue.obj tfs => JValue.obj (reorderToMatchSource sfs tfs)
        | _, _ => tv
      (k, v) :: reorderToMatchSource rest target

/-- Value placed by `reorderToMatchSource` at a key present on both
sides: recurse when both values are containers, else take the target
value. -/
def reorderValue (sv tv : JValue) : JValue :=
  match sv, tv with
  | JValue.obj sfs, JValue.obj tfs => JValue.obj (reorderToMatchSource sfs tfs)
  | _, _ => tv

/-! ### Change detector and lock store (src/core/sync.ts) -/

/-- Embedding of `findChangedKeys` (src/core/sync.ts): walk the source
keys in order, skip frozen keys, and report a key when it has a lock
entry whose value differs from the current source value (`undefined`
counts as different from any locked string). -/
def findChangedKeys (sourceData : Fields) (sourceKeys : List String)
    (lockValues : SRecord) (frozenKeys : List String) : List String :=
  sourceKeys.filter (fun key =>
    if frozenKeys.contains key then false
    else
      match lookupStr lockValues key with
      | some lv => getNestedValue sourceData key != some lv
      | none => false)

/-- Value the `saveLockFile` loop (src/core/sync.ts) assigns to one
source key: a skipped key keeps its previous snapshot value when it
had one; every other key gets the current source value when that is a
string, and no entry otherwise. -/
def lockEntry (sourceData : Fields) (skippedKeys : List String)
    (previousValues : SRecord) (key : String) : Option String :=
  if skippedKeys.contains key ∧ (lookupStr previousValues key).isSome then
    lookupStr previousValues key
  else
    getNestedValue sourceData key

/-- Embedding of the `jsonValues` computation of `saveLockFile`
(src/core/sync.ts): fold JS record assignments of `lockEntry` over the
source keys. -/
def saveLockJsonValues (sourceData : Fields) (sourceKeys : List String)
    (skippedKeys : List String) (previousValues : SRecord) : SRecord :=
  sourceKeys.foldl (fun acc key =>
    match lockEntry sourceData skippedKeys previousValues key with
    | some v => recAssignStr acc key v
    | none => acc) []

/-! ### Batch translation engine (src/core/sync.ts) -/

/-- Outcome of one oracle invocation: a returned batch or a thrown
error message. -/
inductive OracleResult where
  | ok (batch : SRecord)
  | err (msg : String)

/-- Translation oracle (`provider.translateBatch`), deterministic in
the request payload, the target language and the attempt index (the
attempt index stands for the external state that makes a retried call
differ from the first one). -/
abbrev Oracle := SRecord → String → Nat → OracleResult

/-- Substring test, mirroring JS `String.prototype.includes`. -/
def hasSub (pat : List Char) : List Char → Bool
  | [] => pat.isEmpty
  | c :: rest => pat.isPrefixOf (c :: rest) || hasSub pat rest

/-- Rate-limit detection of `translateBatchWithRetry`:
`errorMessage.includes("429")`. -/
def isRateLimitMsg (msg : String) : Bool :=
  hasSub "429".data msg.data

/-- Embedding of `translateBatchWithRetry` (src/core/sync.ts), also
counting oracle invocations: on failure, retry the same payload while
the message contains "429" and retries remain, else rethrow. Returns
the final outcome together with the number of oracle calls made. -/
def translateBatchWithRetry (oracle : Oracle) (batch : SRecord) (targetLang : String)
    (retries attempt : Nat) : (Except String SRecord) × Nat :=
  match oracle batch targetLang attempt with
  | OracleResult.ok b => (Except.ok b, 1)
  | OracleResult.err m =>
    match retries with
    | 0 => (Except.error m, 1)
    | r + 1 =>
      if isRateLimitMsg m then
        let rec' := translateBatchWithRetry oracle batch targetLang r (attempt + 1)
        (rec'.1, rec'.2 + 1)
      else
        (Except.error m, 1)

/-- Fixed-size slices `keysToTranslate.slice(i, i + batchSize)` of the
chunking loop in `translateKeys`; with `batchSize = 0` the TS loop
would never advance, so no chunks are produced. -/
def chunksOf (batchSize : Nat) : List String → List (List String)
  | [] => []
  | x :: xs =>
    match batchSize with
    | 0 => []
    | b + 1 => (x :: xs).take (b + 1) :: chunksOf (b + 1) ((x :: xs).drop (b + 1))
termination_by l => l.length
decreasing_by simp_all [List.drop]; omega

/-- Payload built for one chunk in `translateKeys`: JS-assign each key
whose source value is truthy (a defined, non-empty string). -/
def buildBatch (sourceData : Fields) (batchKeys : List String) : SRecord :=
  batchKeys.foldl (fun acc key =>
    match getNestedValue sourceData key with
    | some v => if v = "" then acc else recAssignStr acc key v
    | none => acc) []

/-- Merge loop over a returned batch: `setNestedValue` for each
returned entry, counting one translation per entry. -/
def mergeBatch (target : Fields) (batch : SRecord) : Fields :=
  batch.foldl (fun t kv => setNestedValue t kv.1 (JValue.str kv.2)) target

/-- Result of `translateKeys`: updated target tree, translated and
failed counters, plus a ghost count of oracle invocations. -/
structure TranslateResult where
  target : Fields
  translated : Nat
  failed : Nat
  calls : Nat
deriving Repr

/-- Chunk loop of `translateKeys` (src/core/sync.ts): per chunk, build
the payload, call the retrying oracle wrapper, merge every returned
entry on success, and add the whole chunk's key count to `failed` on
error (failure is chunk-granular). -/
def translateChunks (oracle : Oracle) (sourceData : Fields) (localeCode : String)
    (maxRetries : Nat) : List (List String) → Fields → TranslateResult
  | [], target => ⟨target, 0, 0, 0⟩
  | chunk :: rest, target =>
    let batch := buildBatch sourceData chunk
    let attempt := translateBatchWithRetry oracle batch localeCode maxRetries 0
    match attempt.1 with
    | Except.ok b =>
      let res := translateChunks oracle sourceData localeCode maxRetries rest (mergeBatch target b)
      ⟨res.target, res.translated + b.length, res.failed, res.calls + attempt.2⟩
    | Except.error _ =>
      let res := translateChunks oracle sourceData localeCode maxRetries rest target
      ⟨res.target, res.translated, res.failed + chunk.length, res.calls + attempt.2⟩

/-- Embedding of `translateKeys` (src/core/sync.ts). -/
def translateKeys (oracle : Oracle) (keysToTranslate : List String)
    (sourceData target : Fields) (localeCode : String)
    (batchSize maxRetries : Nat) : TranslateResult :=
  translateChunks oracle sourceData localeCode maxRetries
    (chunksOf batchSize keysToTranslate) target

/-- Keys `processLocale` (src/core/sync.ts) retranslates in force
mode: every source key currently present in the target. -/
def forceKeysToUpdate (targetData : Fields) (sourceKeys : List String) : List String :=
  sourceKeys.filter (fun key => (getNestedValue targetData key).isSome)

/-- Missing keys of `processLocale`: source keys whose target value is
`undefined`. -/
def missingKeys (targetData : Fields) (sourceKeys : List String) : List String :=
  sourceKeys.filter (fun key => (getNestedValue targetData key).isNone)

/-- Key set `processLocale` sends to `translateKeys` in force mode:
`[...missingKeys, ...keysToUpdate]`. -/
def forceAllKeysToTranslate (targetData : Fields) (sourceKeys : List String) : List String :=
  missingKeys targetData sourceKeys ++ forceKeysToUpdate targetData sourceKeys

/-! ### Markdown synchronization (src/core/markdown-sync.ts)

A markdown unit is a relative file path; its snapshot value is the
content hash.  The sha256 hash itself is abstracted: a source file is
modelled as the pair (relative path, current content hash).  The
interactive collaborator is modelled as scripted decisions, following
the design note of the specification. -/

/-- Tracking mode (`TRACK_CHANGES` in src/interfaces/index.ts). -/
inductive TrackChanges where
  | off
  | on
  | carefully
deriving Repr, DecidableEq

/-- Global action returned by `askChangedKeysAction`. -/
inductive GlobalAction where
  | retranslateAll
  | skipAll
  | review
deriving Repr, DecidableEq

/-- Per-unit action returned by `askPerKeyAction`. -/
inductive PerAction where
  | retranslate
  | skip
  | freeze
deriving Repr, DecidableEq

/-- Scripted interactive collaborator: one global action and one
per-unit action per identity. -/
structure Decisions where
  globalAction : GlobalAction
  perUnit : String → PerAction

/-- Resolved decision sets of a markdown run: the retranslate set, the
skip set and the frozen set as they stand when the per-locale loop and
the lock save run. -/
structure MdResolution where
  changedSet : List String
  skippedSet : List String
  frozenSet : List String

/-- Changed files of `syncMarkdownTranslations`: files that are not
frozen and whose previous hash exists and differs from the current
one. `files` holds (relative path, current content hash) pairs. -/
def mdChangedFiles (files : List (String × String)) (previousHashes : SRecord)
    (frozen : List String) : List String :=
  (files.filter (fun pf =>
    if frozen.contains pf.1 then false
    else
      match lookupStr previousHashes pf.1 with
      | some prev => prev != pf.2
      | none => false)).map (fun pf => pf.1)

/-- Review loop of `syncMarkdownTranslations`: one per-file action for
each changed file; `freeze` adds to the frozen set and, like `skip`,
to the skip set. Returns (changedSet, skippedSet, frozenSet). -/
def mdReview (dec : Decisions) (changedFiles : List String)
    (frozen : List String) : List String × List String × List String :=
  match changedFiles with
  | [] => ([], [], frozen)
  | p :: rest =>
    match dec.perUnit p with
    | PerAction.retranslate =>
      let r := mdReview dec rest frozen
      (p :: r.1, r.2.1, r.2.2)
    | PerAction.skip =>
      let r := mdReview dec rest frozen
      (r.1, p :: r.2.1, r.2.2)
    | PerAction.freeze =>
      let r := mdReview dec rest (frozen ++ [p])
      (r.1, p :: r.2.1, r.2.2)

/-- Decision phase of `syncMarkdownTranslations` (lines 184-251):
clear the frozen set in force mode, compute the changed files, then
fill the changed/skipped sets from the tracking mode and the scripted
collaborator. -/
def mdResolve (forceRetranslate : Bool) (trackChanges : TrackChanges)
    (files : List (String × String)) (previousHashes : SRecord)
    (previousFrozen : List String) (dec : Decisions) : MdResolution :=
  let frozen1 := if forceRetranslate then [] else previousFrozen
  let changedFiles := mdChangedFiles files previousHashes frozen1
  if trackChanges = TrackChanges.on then
    ⟨changedFiles, [], frozen1⟩
  else if trackChanges = TrackChanges.carefully ∧ changedFiles ≠ [] then
    match dec.globalAction with
    | GlobalAction.retranslateAll => ⟨changedFiles, [], frozen1⟩
    | GlobalAction.skipAll => ⟨[], changedFiles, frozen1⟩
    | GlobalAction.review =>
      let r := mdReview dec changedFiles frozen1
      ⟨r.1, r.2.1, r.2.2⟩
  else
    ⟨[], [], frozen1⟩

/-- Per-file write decision of the markdown per-locale loop (lines
257-291): frozen or skipped files are skipped unless forced, and the
remaining files are written when forced, when the target does not yet
exist, or when the file is in the retranslate set. -/
def mdShouldWrite (forceRetranslate : Bool) (frozenSet skippedSet changedSet : List String)
    (hasTarget : Bool) (p : String) : Bool :=
  if !forceRetranslate && frozenSet.contains p then false
  else if !forceRetranslate && skippedSet.contains p then false
  else forceRetranslate || !hasTarget || changedSet.contains p

/-- Embedding of the `nextValues` computation of
`syncMarkdownTranslations` (lines 298-306): each source file maps to
its previous hash when skipped with an existing previous hash, and to
its current hash otherwise. -/
def mdNextValues (files : List (String × String)) (skippedSet : List String)
    (previousHashes : SRecord) : SRecord :=
  files.foldl (fun acc pf =>
    if skippedSet.contains pf.1 ∧ (lookupStr previousHashes pf.1).isSome then
      match lookupStr previousHashes pf.1 with
      | some prev => recAssignStr acc pf.1 prev
      | none => recAssignStr acc pf.1 pf.2
    else
      recAssignStr acc pf.1 pf.2) []

/-- Decision phase of `syncTranslations` (src/core/sync.ts lines
361-468) for the tree mode, producing (changedKeys, skippedKeys,
frozenKeys) as they stand when the per-locale loop and the lock save
run: force mode clears the frozen keys and never consults the
collaborator; otherwise with tracking enabled the lock is loaded, a
first run (empty snapshot) detects nothing, and in carefully mode a
non-empty changed set escalates to the scripted collaborator
(retranslate-all / skip-all / per-key review, where `freeze` appends
to the frozen keys). -/
def jsonResolve (forceRetranslate : Bool) (trackChanges : TrackChanges)
    (sourceData : Fields) (sourceKeys : List String)
    (lockValues : SRecord) (lockFrozen : List String) (dec : Decisions) :
    List String × List String × List String :=
  if forceRetranslate then ([], [], [])
  else if trackChanges = TrackChanges.on ∨ trackChanges = TrackChanges.carefully then
    if lockValues.isEmpty then ([], [], lockFrozen)
    else
      let changedKeys := findChangedKeys sourceData sourceKeys lockValues lockFrozen
      if trackChanges = TrackChanges.carefully ∧ changedKeys ≠ [] then
        match dec.globalAction with
        | GlobalAction.skipAll => ([], changedKeys, lockFrozen)
        | GlobalAction.review =>
          (changedKeys.filter (fun k => dec.perUnit k == PerAction.retranslate),
            changedKeys.filter (fun k => dec.perUnit k == PerAction.skip),
            lockFrozen ++ changedKeys.filter (fun k => dec.perUnit k == PerAction.freeze))
        | GlobalAction.retranslateAll => (changedKeys, [], lockFrozen)
      else (changedKeys, [], lockFrozen)
  else ([], [], [])

/-! ### Fenced-code-block protection (src/core/markdown-sync.ts)

`protectCodeBlocks` replaces every fenced code block (lazy regex
match between two triple-backtick fences) by an opaque placeholder
token; `restoreCodeBlocks` substitutes the tokens back by repeated
global string replacement, one token at a time in insertion order.
Strings are modelled as character lists.  JS `String.replace` with a
string replacement additionally interprets dollar escape sequences
(`$&` and friends) inside the replacement; the model splices the
replacement literally, which coincides with JS exactly when the
replacement contains no dollar character — the theorems about
restoration therefore assume dollar-free code blocks. -/

/-- Decimal digit character (`0` + d). -/
def digitChar (d : Nat) : Char :=
  Char.ofNat (48 + d)

/-- Decimal digits of a natural number, most significant first,
mirroring JS number-to-string interpolation `${index}`. -/
def natToDigits (n : Nat) : List Char :=
  if n < 10 then [digitChar n]
  else natToDigits (n / 10) ++ [digitChar (n % 10)]
termination_by n
decreasing_by omega

/-- Numeric value of a digit list (left fold), used to show that
`natToDigits` is injective. -/
def digitsVal (l : List Char) : Nat :=
  l.foldl (fun a c => 10 * a + (c.toNat - 48)) 0

/-- The triple-backtick fence delimiting a code block. -/
def fenceChars : List Char :=
  "```".data

/-- Characters of `CODE_BLOCK_TOKEN_PREFIX` = "__PGK_CODE_BLOCK_". -/
def tokenPrefixChars : List Char :=
  "__PGK_CODE_BLOCK_".data

/-- Placeholder token for the i-th code block:
the token prefix, the decimal index, then two underscores. -/
def tokenChars (i : Nat) : List Char :=
  tokenPrefixChars ++ natToDigits i ++ "__".data

/-- First occurrence of `pat` in a character list, returned as the
text before it and the text after it (`none` when `pat` does not
occur). -/
def splitAtSub (pat : List Char) : List Char → Option (List Char × List Char)
  | [] => none
  | c :: rest =>
    if pat.isPrefixOf (c :: rest) then some ([], (c :: rest).drop pat.length)
    else
      match splitAtSub pat rest with
      | some (pre, post) => some (c :: pre, post)
      | none => none

/-- Embedding of `protectCodeBlocks` (src/core/markdown-sync.ts): scan
for a lazy match between two fences; replace the block by the next
placeholder token, record the (token, block) pair, and continue after
the block. When no (further) complete block exists the remaining text
is left as it is. -/
def protectCodeBlocks (s : List Char) (index : Nat) :
    List Char × List (List Char × List Char) :=
  match h1 : splitAtSub fenceChars s with
  | none => (s, [])
  | some (pre, rest) =>
    match h2 : splitAtSub fenceChars rest with
    | none => (s, [])
    | some (mid, rest2) =>
      let block := fenceChars ++ mid ++ fenceChars
      let token := tokenChars index
      let r := protectCodeBlocks rest2 (index + 1)
      (pre ++ token ++ r.1, (token, block) :: r.2)
termination_by s.length
decreasing_by
  have key : ∀ (pat : List Char) (s' pre post : List Char),
      splitAtSub pat s' = some (pre, post) → post.length + pat.length ≤ s'.length := by
    intro pat s'
    induction s' with
    | nil => intro pre post h; simp [splitAtSub] at h
    | cons c cs ih =>
      intro pre post h
      simp only [splitAtSub] at h
      split at h
      · rename_i hp
        simp only [Option.some.injEq, Prod.mk.injEq] at h
        have hle : pat.length ≤ (c :: cs).length :=
          (List.isPrefixOf_iff_prefix.mp hp).length_le
        have hpl : (c :: cs).drop pat.length = post := h.2
        subst hpl
        simp only [List.length_drop]
        omega
      · cases hsplit : splitAtSub pat cs with
        | none => rw [hsplit] at h; exact absurd h (by simp)
        | some pr =>
          rw [hsplit] at h
          obtain ⟨pre', post'⟩ := pr
          simp only [Option.some.injEq, Prod.mk.injEq] at h
          have := ih pre' post' hsplit
          have hpl : post' = post := h.2
          subst hpl
          simp only [List.length_cons]
          omega
  have k1 := key fenceChars s pre rest h1
  have k2 := key fenceChars rest mid rest2 h2
  have : fenceChars.length = 3 := by decide
  omega

/-- Global left-to-right replacement of every occurrence of `pat` by
`repl`, continuing after each splice, mirroring
`value.replace(new RegExp(escapeRegex(token), "g"), block)` with the
replacement treated literally. -/
def replaceSub (pat repl : List Char) : List Char → List Char
  | [] => []
  | c :: rest =>
    if h : pat ≠ [] ∧ pat.isPrefixOf (c :: rest) then
      repl ++ replaceSub pat repl ((c :: rest).drop pat.length)
    else
      c :: replaceSub pat repl rest
termination_by s => s.length
decreasing_by
  · have hle : pat.length ≤ (c :: rest).length :=
      (List.isPrefixOf_iff_prefix.mp h.2).length_le
    have hpos : 0 < pat.length := by
      cases pat with
      | nil => exact absurd rfl h.1
      | cons p ps => simp
    simp only [List.length_drop]
    simp only [List.length_cons] at *
    omega
  · simp

/-- Embedding of `restoreCodeBlocks` (src/core/markdown-sync.ts):
substitute each recorded (token, block) pair back, in insertion
order. -/
def restoreCodeBlocks (s : List Char) (replacements : List (List Char × List Char)) :
    List Char :=
  replacements.foldl (fun acc tb => replaceSub tb.1 tb.2 acc) s

/-- Oracle output in markdown mode, as the specification's scripted
collaborator sees it: a sequence of prose pieces and preserved
placeholder tokens. -/
inductive Seg where
  | prose (p : List Char)
  | tok (i : Nat)

/-- Concatenated text of a segment list, where the i-th token renders
through `f` (the pending token text, or the already-restored block,
depending on the restoration stage). -/
def renderSegs (f : Nat → List Char) : List Seg → List Char
  | [] => []
  | Seg.prose p :: rest => p ++ renderSegs f rest
  | Seg.tok i :: rest => f i ++ renderSegs f rest

/-- Rendering function at restoration stage `k` over a block table:
tokens below `k` have been replaced by their blocks, the rest still
read as placeholder tokens. -/
def stageRender (blocks : List (List Char)) (k : Nat) (i : Nat) : List Char :=
  if i < k then blocks.getD i [] else tokenChars i

/-! ### Record lemmas -/

theorem lookupRec_nil {α : Type} (k : String) : lookupRec ([] : List (String × α)) k = none := rfl

theorem lookupRec_eq_find {α : Type} (l : List (String × α)) (k : String) :
    lookupRec l k = (l.find? (fun p => p.1 == k)).map Prod.snd := by
  unfold lookupRec
  cases h : l.find? (fun p => p.1 == k) <;> simp

theorem lookupRec_cons {α : Type} (a : String) (b : α) (l : List (String × α)) (k : String) :
    lookupRec ((a, b) :: l) k = if a == k then some b else lookupRec l k := by
  rw [lookupRec_eq_find, lookupRec_eq_find]
  simp only [List.find?]
  cases h : a == k
  · simp [h]
  · simp [h]

theorem lookupRec_recAssign_self {α : Type} (l : List (String × α)) (k : String) (v : α) :
    lookupRec (recAssign l k v) k = some v := by
  rw [lookupRec_eq_find]
  unfold recAssign
  by_cases hany : l.any (fun p => p.1 == k)
  · rw [if_pos hany, List.find?_map]
    have hpred : ((fun p : String × α => p.1 == k) ∘
        (fun p : String × α => if p.1 == k then (k, v) else p)) =
        (fun p : String × α => p.1 == k) := by
      funext q
      by_cases hq : q.1 = k <;> simp [hq]
    rw [hpred]
    cases hfind : l.find? (fun p => p.1 == k) with
    | none =>
      rw [List.find?_eq_none] at hfind
      obtain ⟨x, hx, hpx⟩ := List.any_eq_true.mp hany
      exact absurd hpx (hfind x hx)
    | some q =>
      have hq' : q.1 = k := by
        have := List.find?_some hfind
        simpa using this
      simp [hq']
  · rw [if_neg hany, List.find?_append]
    have h1 : l.find? (fun p => p.1 == k) = none := by
      rw [List.find?_eq_none]
      intro x hx hpx
      exact hany (List.any_eq_true.mpr ⟨x, hx, hpx⟩)
    rw [h1]
    simp [List.find?]

theorem lookupRec_recAssign_other {α : Type} (l : List (String × α)) (k : String) (v : α)
    (k' : String) (h : ¬ k = k') :
    lookupRec (recAssign l k v) k' = lookupRec l k' := by
  rw [lookupRec_eq_find, lookupRec_eq_find]
  unfold recAssign
  by_cases hany : l.any (fun p => p.1 == k)
  · rw [if_pos hany, List.find?_map]
    have hpred : ((fun p : String × α => p.1 == k') ∘
        (fun p : String × α => if p.1 == k then (k, v) else p)) =
        (fun p : String × α => p.1 == k') := by
      funext q
      by_cases hq : q.1 = k
      · simp [hq]
      · simp [hq]
    rw [hpred]
    cases hfind : l.find? (fun p => p.1 == k') with
    | none => rfl
    | some q =>
      have hq' : q.1 = k' := by
        have := List.find?_some hfind
        simpa using this
      have hqk : ¬ q.1 = k := fun he => h (he.symm.trans hq')
      simp [hqk]
  · rw [if_neg hany, List.find?_append]
    have hkk : (k == k') = false := by simpa using h
    have h2 : List.find? (fun p => p.1 == k') [(k, v)] = none := by
      simp [List.find?, hkk]
    rw [h2]
    cases l.find? (fun p => p.1 == k') <;> rfl

theorem mem_recAssign {α : Type} (l : List (String × α)) (k : String) (v : α)
    (q : String × α) (hq : q ∈ recAssign l k v) : q = (k, v) ∨ q ∈ l := by
  unfold recAssign at hq
  by_cases hany : l.any (fun p => p.1 == k)
  · rw [if_pos hany, List.mem_map] at hq
    obtain ⟨p, hp, hpq⟩ := hq
    by_cases hk : p.1 = k
    · rw [if_pos (by simpa using hk)] at hpq
      exact Or.inl hpq.symm
    · rw [if_neg (by simpa using hk)] at hpq
      exact Or.inr (hpq ▸ hp)
  · rw [if_neg hany] at hq
    rcases List.mem_append.mp hq with h1 | h1
    · exact Or.inr h1
    · exact Or.inl (List.mem_singleton.mp h1)

/-- C1: the change detector reports a key as changed exactly when it
is a source key, not frozen, with a lock-snapshot entry whose value
differs from the current source value; in particular a key without a
snapshot entry (first run) is never reported, and a frozen key is
never reported whatever its value drift. -/
theorem findChangedKeys_spec (sourceData : Fields) (sourceKeys : List String)
    (lockValues : SRecord) (frozenKeys : List String) (key : String) :
    key ∈ findChangedKeys sourceData sourceKeys lockValues frozenKeys ↔
      key ∈ sourceKeys ∧ key ∉ frozenKeys ∧
        (lookupStr lockValues key).isSome = true ∧
        getNestedValue sourceData key ≠ lookupStr lockValues key := by
  unfold findChangedKeys
  rw [List.mem_filter]
  constructor
  · rintro ⟨hmem, hpred⟩
    by_cases hf : frozenKeys.contains key
    · rw [if_pos hf] at hpred
      exact absurd hpred (by simp)
    · rw [if_neg hf] at hpred
      have hf' : key ∉ frozenKeys := fun hmemf => hf (List.elem_iff.mpr hmemf)
      cases hlk : lookupStr lockValues key with
      | none => rw [hlk] at hpred; exact absurd hpred (by simp)
      | some lv =>
        rw [hlk] at hpred
        have hpred' : (getNestedValue sourceData key != some lv) = true := hpred
        refine ⟨hmem, hf', rfl, ?_⟩
        intro hcontra
        rw [hcontra] at hpred'
        simp at hpred'
  · rintro ⟨hmem, hf, hsome, hne⟩
    refine ⟨hmem, ?_⟩
    have hf' : frozenKeys.contains key = false := by
      cases hc : frozenKeys.contains key
      · rfl
      · exact absurd (List.elem_iff.mp hc) hf
    rw [if_neg (by simp [hf])]
    cases hlk : lookupStr lockValues key with
    | none => rw [hlk] at hsome; simp at hsome
    | some lv =>
      rw [hlk] at hne
      show (getNestedValue sourceData key != some lv) = true
      simpa using hne

/-- C7 counterexample: a frozen markdown file whose target file does
not exist is not written (the frozen guard fires first), although the
claimed condition "force, or target missing, or in the retranslate
set" holds; the claimed equivalence is therefore false at this
input. -/
theorem mdShouldWrite_claim_false :
    ¬ (mdShouldWrite false ["a.md"] [] [] false "a.md" = true ↔
        (false = true ∨ false = false ∨ "a.md" ∈ ([] : List String))) := by
  decide

/-- C7 as amended: a markdown target file is written exactly when
force mode is on, or the file is neither frozen nor skipped and the
target is missing or the file is in the retranslate set; frozen and
skipped files (unforced) are never written, even when the target does
not yet exist. -/
theorem mdShouldWrite_spec (forceRetranslate : Bool)
    (frozenSet skippedSet changedSet : List String) (hasTarget : Bool) (p : String) :
    mdShouldWrite forceRetranslate frozenSet skippedSet changedSet hasTarget p = true ↔
      (forceRetranslate = true ∨
        (p ∉ frozenSet ∧ p ∉ skippedSet ∧
          (hasTarget = false ∨ p ∈ changedSet))) := by
  unfold mdShouldWrite
  cases forceRetranslate with
  | true => simp
  | false =>
    by_cases hf : frozenSet.contains p
    · have hfm : p ∈ frozenSet := List.elem_iff.mp hf
      rw [if_pos (by simp [hfm])]
      simp [hfm]
    · have hf' : p ∉ frozenSet := fun hm => hf (List.elem_iff.mpr hm)
      have hfb : frozenSet.contains p = false := by
        cases hc : frozenSet.contains p
        · rfl
        · exact absurd hc hf
      rw [if_neg (by simp [hf'])]
      by_cases hs : skippedSet.contains p
      · have hsm : p ∈ skippedSet := List.elem_iff.mp hs
        rw [if_pos (by simp [hsm])]
        simp [hsm]
      · have hs' : p ∉ skippedSet := fun hm => hs (List.elem_iff.mpr hm)
        have hsb : skippedSet.contains p = false := by
          cases hc : skippedSet.contains p
          · rfl
          · exact absurd hc hs
        rw [if_neg (by simp [hs'])]
        cases hasTarget with
        | true =>
          constructor
          · intro hcc
            have hcm : changedSet.contains p = true := by
              cases hc : changedSet.contains p
              · rw [hc] at hcc; simp at hcc
              · rfl
            exact Or.inr ⟨hf', hs', Or.inr (List.elem_iff.mp hcm)⟩
          · rintro (hcc | ⟨-, -, hcase⟩)
            · simp at hcc
            · rcases hcase with hcase | hcase
              · simp at hcase
              · simp [hcase]
        | false => simp [hf', hs']

theorem reorderToMatchSource_nil (target : Fields) :
    reorderToMatchSource [] target = [] := by
  unfold reorderToMatchSource
  rfl

theorem reorderToMatchSource_cons (k0 : String) (sv0 : JValue) (rest target : Fields) :
    reorderToMatchSource ((k0, sv0) :: rest) target =
      match lookupField target k0 with
      | none => reorderToMatchSource rest target
      | some tv => (k0, reorderValue sv0 tv) :: reorderToMatchSource rest target := by
  conv_lhs => rw [reorderToMatchSource]
  cases lookupField target k0 with
  | none => rfl
  | some tv => cases sv0 <;> cases tv <;> rfl

/-- C5: `reorderToMatchSource` returns a tree whose keys are exactly
the source keys also present in the target, in the source's key
order, and whose value at each shared key recurses into both
containers when source and target both hold containers and is the
target value otherwise; target-only keys are dropped. -/
theorem reorderToMatchSource_spec (source target : Fields) :
    ((reorderToMatchSource source target).map Prod.fst =
      (source.map Prod.fst).filter (fun k => (lookupField target k).isSome)) ∧
    (∀ k sv tv, lookupField source k = some sv → lookupField target k = some tv →
      lookupField (reorderToMatchSource source target) k =
        some (reorderValue sv tv)) := by
  constructor
  · induction source with
    | nil => rw [reorderToMatchSource_nil]; rfl
    | cons p rest ih =>
      obtain ⟨k0, sv0⟩ := p
      rw [reorderToMatchSource_cons]
      cases h : lookupField target k0 with
      | none => simpa [h] using ih
      | some tv0 => simpa [h] using ih
  · intro k sv tv hsv htv
    induction source with
    | nil => simp [lookupField, lookupRec] at hsv
    | cons p rest ih =>
      obtain ⟨k0, sv0⟩ := p
      rw [show lookupField ((k0, sv0) :: rest) k = lookupRec ((k0, sv0) :: rest) k from rfl,
        lookupRec_cons] at hsv
      rw [reorderToMatchSource_cons]
      by_cases hk : k0 == k
      · rw [if_pos hk] at hsv
        have hsv' : sv0 = sv := by simpa using hsv
        have hk' : k0 = k := by simpa using hk
        subst hsv'
        subst hk'
        rw [htv]
        show lookupRec ((k0, reorderValue sv0 tv) :: reorderToMatchSource rest target) k0 =
          some (reorderValue sv0 tv)
        rw [lookupRec_cons, if_pos (by simp)]
      · rw [if_neg hk] at hsv
        have hrec := ih hsv
        cases h : lookupField target k0 with
        | none => exact hrec
        | some tv0 =>
          show lookupRec ((k0, reorderValue sv0 tv0) :: reorderToMatchSource rest target) k =
            some (reorderValue sv tv)
          rw [lookupRec_cons, if_neg (by simpa using hk)]
          exact hrec

/-- C5 witness: the characterization applied to a concrete source and
target with a shared nested container, a shared string key and a
target-only key. -/
theorem reorderToMatchSource_spec_witness :
    lookupField
        (reorderToMatchSource
          [("a", JValue.str "x"), ("b", JValue.obj [("c", JValue.str "y")])]
          [("extra", JValue.str "e"), ("b", JValue.obj [("c", JValue.str "z")]),
            ("a", JValue.str "w")])
        "b" =
      some (reorderValue (JValue.obj [("c", JValue.str "y")])
        (JValue.obj [("c", JValue.str "z")])) :=
  (reorderToMatchSource_spec
      [("a", JValue.str "x"), ("b", JValue.obj [("c", JValue.str "y")])]
      [("extra", JValue.str "e"), ("b", JValue.obj [("c", JValue.str "z")]),
        ("a", JValue.str "w")]).2
    "b" (JValue.obj [("c", JValue.str "y")]) (JValue.obj [("c", JValue.str "z")])
    (by rfl) (by rfl)

/-! ### Deletion and cleanup (C8) -/

theorem cleanupEmptyObjects_nil : cleanupEmptyObjects [] = [] := by
  rw [cleanupEmptyObjects.eq_def]

theorem cleanupEmptyObjects_cons_obj (k : String) (sub rest : Fields) :
    cleanupEmptyObjects ((k, JValue.obj sub) :: rest) =
      if (cleanupEmptyObjects sub).isEmpty then cleanupEmptyObjects rest
      else (k, JValue.obj (cleanupEmptyObjects sub)) :: cleanupEmptyObjects rest := by
  rw [cleanupEmptyObjects.eq_def]

theorem cleanupEmptyObjects_cons_str (k s : String) (rest : Fields) :
    cleanupEmptyObjects ((k, JValue.str s) :: rest) =
      (k, JValue.str s) :: cleanupEmptyObjects rest := by
  rw [cleanupEmptyObjects.eq_def]

theorem cleanupEmptyObjects_cons_other (k : String) (rest : Fields) :
    cleanupEmptyObjects ((k, JValue.other) :: rest) =
      (k, JValue.other) :: cleanupEmptyObjects rest := by
  rw [cleanupEmptyObjects.eq_def]

/-- C8 counterexample: in the tree `{a: {}, b: {c: "x"}}`, the key `a`
holds a container that is not on the path `b.c` and was empty before
the deletion; yet `deleteNestedKey` over `b.c` prunes it together with
the emptied `b`, leaving the empty tree — the claim that only
containers emptied by the deletion are pruned and that containers off
the deleted path stay unchanged is false at this input. -/
theorem deleteNestedKey_claim_false :
    lookupField [("a", JValue.obj []), ("b", JValue.obj [("c", JValue.str "x")])] "a"
        = some (JValue.obj []) ∧
    deleteNestedKey [("a", JValue.obj []), ("b", JValue.obj [("c", JValue.str "x")])] "b.c"
        = [] ∧
    lookupField
        (deleteNestedKey [("a", JValue.obj []), ("b", JValue.obj [("c", JValue.str "x")])]
          "b.c") "a" = none := by
  have hdel : deleteNestedKey
      [("a", JValue.obj []), ("b", JValue.obj [("c", JValue.str "x")])] "b.c" = [] := by
    show (match deleteAtPath
        [("a", JValue.obj []), ("b", JValue.obj [("c", JValue.str "x")])]
        (splitKey "b.c") with
      | some f => cleanupEmptyObjects f
      | none => [("a", JValue.obj []), ("b", JValue.obj [("c", JValue.str "x")])]) = []
    have hpath : deleteAtPath
        [("a", JValue.obj []), ("b", JValue.obj [("c", JValue.str "x")])]
        (splitKey "b.c") = some [("a", JValue.obj []), ("b", JValue.obj [])] := rfl
    rw [hpath]
    show cleanupEmptyObjects [("a", JValue.obj []), ("b", JValue.obj [])] = []
    rw [cleanupEmptyObjects_cons_obj, cleanupEmptyObjects_nil]
    rw [cleanupEmptyObjects_cons_obj, cleanupEmptyObjects_nil]
    rfl
  exact ⟨rfl, hdel, by rw [hdel]; rfl⟩

theorem nodupKeys_cons (k0 : String) (v : JValue) (rest : Fields) :
    nodupKeys ((k0, v) :: rest) =
      (!(rest.any (fun p => p.1 == k0)) &&
        (match v with | JValue.obj sub => nodupKeys sub | _ => true) &&
        nodupKeys rest) := by
  cases v <;> rw [nodupKeys.eq_def] <;> simp

theorem noEmptyFields_cons (k0 : String) (v : JValue) (rest : Fields) :
    noEmptyFields ((k0, v) :: rest) =
      ((match v with | JValue.obj sub => !sub.isEmpty && noEmptyFields sub | _ => true) &&
        noEmptyFields rest) := by
  cases v <;> rw [noEmptyFields.eq_def] <;> simp

theorem lookupRec_removeField_self (l : Fields) (k : String) :
    lookupRec (removeField l k) k = none := by
  rw [lookupRec_eq_find]
  have h : (removeField l k).find? (fun p => p.1 == k) = none := by
    rw [List.find?_eq_none]
    intro x hx
    have hmem := List.mem_filter.mp hx
    intro hpx
    have h1 : (x.1 != k) = true := hmem.2
    have h2 : x.1 = k := by simpa using hpx
    simp [h2] at h1
  rw [h]
  rfl

theorem lookupRec_removeField_other (l : Fields) (k k' : String) (h : ¬ k' = k) :
    lookupRec (removeField l k) k' = lookupRec l k' := by
  induction l with
  | nil => rfl
  | cons p rest ih =>
    obtain ⟨p1, p2⟩ := p
    by_cases hp : p1 = k
    · have hrm : removeField ((p1, p2) :: rest) k = removeField rest k := by
        simp [removeField, hp]
      have hne : (p1 == k') = false := by
        rw [hp]
        simpa using fun he : k = k' => h he.symm
      rw [hrm, ih, lookupRec_cons, hne]
      simp
    · have hrm : removeField ((p1, p2) :: rest) k = (p1, p2) :: removeField rest k := by
        simp [removeField, hp]
      rw [hrm, lookupRec_cons, lookupRec_cons]
      by_cases hq : p1 == k'
      · simp [hq]
      · simp only [Bool.not_eq_true] at hq
        simp only [hq, if_false]
        exact ih

theorem any_filter_false {α : Type} (l : List α) (p q : α → Bool) (h : l.any p = false) :
    (l.filter q).any p = false := by
  cases hc : (l.filter q).any p
  · rfl
  · obtain ⟨x, hx, hpx⟩ := List.any_eq_true.mp hc
    have hxl : x ∈ l := (List.mem_filter.mp hx).1
    have := List.any_eq_true.mpr ⟨x, hxl, hpx⟩
    rw [h] at this
    exact absurd this (by simp)

theorem nodup_removeField (l : Fields) (k : String) (h : nodupKeys l = true) :
    nodupKeys (removeField l k) = true := by
  induction l with
  | nil => exact h
  | cons p rest ih =>
    obtain ⟨p1, p2⟩ := p
    rw [nodupKeys_cons] at h
    simp only [Bool.and_eq_true] at h
    obtain ⟨⟨hany, hv⟩, hrest⟩ := h
    by_cases hp : p1 = k
    · have : removeField ((p1, p2) :: rest) k = removeField rest k := by
        simp [removeField, hp]
      rw [this]
      exact ih hrest
    · have : removeField ((p1, p2) :: rest) k = (p1, p2) :: removeField rest k := by
        simp [removeField, hp]
      rw [this, nodupKeys_cons]
      simp only [Bool.and_eq_true]
      refine ⟨⟨?_, hv⟩, ih hrest⟩
      have hany' : rest.any (fun p => p.1 == p1) = false := by
        cases hc : rest.any (fun p => p.1 == p1)
        · rfl
        · rw [hc] at hany; exact absurd hany (by simp)
      have := any_filter_false rest (fun p => p.1 == p1) (fun p => p.1 != k) hany'
      simp only [removeField]
      rw [this]
      rfl

theorem map_overwrite_any_keys {α : Type} (l : List (String × α)) (k : String) (v : α)
    (c : String) :
    ((l.map fun p => if p.1 == k then (k, v) else p).any fun p => p.1 == c) =
      (l.any fun p => p.1 == c) := by
  rw [List.any_map]
  congr 1
  funext q
  by_cases hq : q.1 = k
  · simp [hq]
  · simp [hq]

theorem nodupKeys_nil : nodupKeys [] = true := by
  rw [nodupKeys.eq_def]

theorem nodup_recAssign_obj (l : Fields) (k : String) (sub : Fields)
    (hl : nodupKeys l = true) (hsub : nodupKeys sub = true) :
    nodupKeys (recAssignField l k (JValue.obj sub)) = true := by
  unfold recAssignField recAssign
  by_cases hany : l.any (fun p => p.1 == k)
  · rw [if_pos hany]
    clear hany
    induction l with
    | nil => simpa using nodupKeys_nil
    | cons p rest ih =>
      obtain ⟨p1, p2⟩ := p
      rw [nodupKeys_cons] at hl
      simp only [Bool.and_eq_true] at hl
      obtain ⟨⟨hany1, hv⟩, hrest⟩ := hl
      by_cases hp : p1 = k
      · have hhead : (if ((p1, p2) : String × JValue).1 == k
            then (k, JValue.obj sub) else (p1, p2)) = (k, JValue.obj sub) := by
          simp [hp]
        rw [List.map_cons, hhead, nodupKeys_cons]
        simp only [Bool.and_eq_true]
        refine ⟨⟨?_, hsub⟩, ih hrest⟩
        rw [map_overwrite_any_keys]
        rw [hp] at hany1
        exact hany1
      · have hhead : (if ((p1, p2) : String × JValue).1 == k
            then (k, JValue.obj sub) else (p1, p2)) = (p1, p2) := by
          simp [hp]
        rw [List.map_cons, hhead, nodupKeys_cons]
        simp only [Bool.and_eq_true]
        refine ⟨⟨?_, hv⟩, ih hrest⟩
        rw [map_overwrite_any_keys]
        exact hany1
  · rw [if_neg hany]
    simp only [Bool.not_eq_true] at hany
    induction l with
    | nil =>
      rw [List.nil_append, nodupKeys_cons]
      simp [hsub, nodupKeys_nil]
    | cons p rest ih =>
      obtain ⟨p1, p2⟩ := p
      rw [nodupKeys_cons] at hl
      simp only [Bool.and_eq_true] at hl
      obtain ⟨⟨hany1, hv⟩, hrest⟩ := hl
      simp only [List.any_cons, Bool.or_eq_false_iff] at hany
      rw [List.cons_append, nodupKeys_cons]
      simp only [Bool.and_eq_true]
      refine ⟨⟨?_, hv⟩, ih hrest hany.2⟩
      rw [List.any_append]
      have h1 : (rest.any fun p => p.1 == p1) = false := by
        cases hc : rest.any (fun p => p.1 == p1)
        · rfl
        · rw [hc] at hany1; exact absurd hany1 (by simp)
      have h2 : ([(k, JValue.obj sub)].any fun p => p.1 == p1) = false := by
        simp only [List.any_cons, List.any_nil, Bool.or_false]
        have hkp : ¬ k = p1 := fun he => by simp [he] at hany
        simpa using hkp
      rw [h1, h2]
      rfl

theorem nodup_lookup_obj (l : Fields) (p : String) (s : Fields)
    (hl : nodupKeys l = true) (hlk : lookupRec l p = some (JValue.obj s)) :
    nodupKeys s = true := by
  induction l with
  | nil => simp [lookupRec, List.find?] at hlk
  | cons q rest ih =>
    obtain ⟨q1, q2⟩ := q
    rw [nodupKeys_cons] at hl
    simp only [Bool.and_eq_true] at hl
    obtain ⟨⟨hany, hv⟩, hrest⟩ := hl
    rw [lookupRec_cons] at hlk
    by_cases hq : q1 == p
    · rw [if_pos hq] at hlk
      have : q2 = JValue.obj s := by simpa using hlk
      subst this
      exact hv
    · rw [if_neg hq] at hlk
      exact ih hrest hlk

theorem deleteAtPath_nodup (parts : List String) (fields f : Fields)
    (hn : nodupKeys fields = true) (hd : deleteAtPath fields parts = some f) :
    nodupKeys f = true := by
  induction parts generalizing fields f with
  | nil => simp [deleteAtPath] at hd
  | cons p rest ih =>
    cases rest with
    | nil =>
      simp only [deleteAtPath, Option.some.injEq] at hd
      subst hd
      exact nodup_removeField fields p hn
    | cons q rest' =>
      simp only [deleteAtPath] at hd
      cases hlk : lookupField fields p with
      | none => rw [hlk] at hd; simp at hd
      | some v =>
        rw [hlk] at hd
        cases v with
        | str s => simp at hd
        | other => simp at hd
        | obj sub =>
          have hd' : (match deleteAtPath sub (q :: rest') with
              | some sub' => some (recAssignField fields p (JValue.obj sub'))
              | none => none) = some f := hd
          cases hrec : deleteAtPath sub (q :: rest') with
          | none => rw [hrec] at hd'; simp at hd'
          | some sub' =>
            rw [hrec] at hd'
            have hf : recAssignField fields p (JValue.obj sub') = f := by simpa using hd'
            subst hf
            have hsub : nodupKeys sub = true := nodup_lookup_obj fields p sub hn hlk
            exact nodup_recAssign_obj fields p sub' hn (ih sub sub' hsub hrec)

theorem deleteAtPath_getNone (parts : List String) (fields f : Fields)
    (hd : deleteAtPath fields parts = some f) :
    getNestedValueParts f parts = none := by
  induction parts generalizing fields f with
  | nil => simp [deleteAtPath] at hd
  | cons p rest ih =>
    cases rest with
    | nil =>
      simp only [deleteAtPath, Option.some.injEq] at hd
      subst hd
      show (match lookupField (removeField fields p) p with
        | some (JValue.str s) => some s
        | _ => none) = none
      rw [show lookupField (removeField fields p) p = lookupRec (removeField fields p) p from
        rfl, lookupRec_removeField_self]
    | cons q rest' =>
      simp only [deleteAtPath] at hd
      cases hlk : lookupField fields p with
      | none => rw [hlk] at hd; simp at hd
      | some v =>
        rw [hlk] at hd
        cases v with
        | str s => simp at hd
        | other => simp at hd
        | obj sub =>
          have hd' : (match deleteAtPath sub (q :: rest') with
              | some sub' => some (recAssignField fields p (JValue.obj sub'))
              | none => none) = some f := hd
          cases hrec : deleteAtPath sub (q :: rest') with
          | none => rw [hrec] at hd'; simp at hd'
          | some sub' =>
            rw [hrec] at hd'
            have hf : recAssignField fields p (JValue.obj sub') = f := by simpa using hd'
            subst hf
            show (match lookupField (recAssignField fields p (JValue.obj sub')) p with
              | some (JValue.obj s) => getNestedValueParts s (q :: rest')
              | _ => none) = none
            rw [show lookupField (recAssignField fields p (JValue.obj sub')) p =
                lookupRec (recAssign fields p (JValue.obj sub')) p from rfl,
              lookupRec_recAssign_self]
            exact ih sub sub' hrec

theorem mem_cleanup_key (l : Fields) (q : String × JValue)
    (hq : q ∈ cleanupEmptyObjects l) : ∃ q0 ∈ l, q.1 = q0.1 := by
  induction l with
  | nil => rw [cleanupEmptyObjects_nil] at hq; simp at hq
  | cons p rest ih =>
    obtain ⟨p1, p2⟩ := p
    cases p2 with
    | obj sub =>
      rw [cleanupEmptyObjects_cons_obj] at hq
      by_cases he : (cleanupEmptyObjects sub).isEmpty
      · rw [if_pos he] at hq
        obtain ⟨q0, hq0, hk⟩ := ih hq
        exact ⟨q0, List.mem_cons_of_mem _ hq0, hk⟩
      · rw [if_neg he] at hq
        rcases List.mem_cons.mp hq with h1 | h1
        · exact ⟨(p1, JValue.obj sub), List.mem_cons_self _ _, by rw [h1]⟩
        · obtain ⟨q0, hq0, hk⟩ := ih h1
          exact ⟨q0, List.mem_cons_of_mem _ hq0, hk⟩
    | str s =>
      rw [cleanupEmptyObjects_cons_str] at hq
      rcases List.mem_cons.mp hq with h1 | h1
      · exact ⟨(p1, JValue.str s), List.mem_cons_self _ _, by rw [h1]⟩
      · obtain ⟨q0, hq0, hk⟩ := ih h1
        exact ⟨q0, List.mem_cons_of_mem _ hq0, hk⟩
    | other =>
      rw [cleanupEmptyObjects_cons_other] at hq
      rcases List.mem_cons.mp hq with h1 | h1
      · exact ⟨(p1, JValue.other), List.mem_cons_self _ _, by rw [h1]⟩
      · obtain ⟨q0, hq0, hk⟩ := ih h1
        exact ⟨q0, List.mem_cons_of_mem _ hq0, hk⟩

theorem lookupRec_cleanup_none (rest : Fields) (k : String)
    (hany : (rest.any fun p => p.1 == k) = false) :
    lookupRec (cleanupEmptyObjects rest) k = none := by
  rw [lookupRec_eq_find]
  have hfind : (cleanupEmptyObjects rest).find? (fun p => p.1 == k) = none := by
    rw [List.find?_eq_none]
    intro x hx hpx
    obtain ⟨q0, hq0, hkeq⟩ := mem_cleanup_key rest x hx
    have hx1 : x.1 = k := by simpa using hpx
    have hq1 : (q0.1 == k) = true := by
      rw [← hkeq, hx1]
      simp
    have hcontra : (rest.any fun p => p.1 == k) = true :=
      List.any_eq_true.mpr ⟨q0, hq0, hq1⟩
    rw [hany] at hcontra
    exact absurd hcontra (by simp)
  rw [hfind]
  rfl

theorem cleanup_lookup (l : Fields) (k : String) (hl : nodupKeys l = true) :
    lookupRec (cleanupEmptyObjects l) k =
      (match lookupRec l k with
      | some (JValue.obj s) =>
        if (cleanupEmptyObjects s).isEmpty then none
        else some (JValue.obj (cleanupEmptyObjects s))
      | x => x) := by
  induction l with
  | nil => rw [cleanupEmptyObjects_nil]; rfl
  | cons p rest ih =>
    obtain ⟨p1, p2⟩ := p
    rw [nodupKeys_cons] at hl
    simp only [Bool.and_eq_true] at hl
    obtain ⟨⟨hany, hv⟩, hrest⟩ := hl
    cases p2 with
    | str s =>
      rw [cleanupEmptyObjects_cons_str, lookupRec_cons, lookupRec_cons]
      by_cases hp : p1 == k
      · rw [if_pos hp, if_pos hp]
      · rw [if_neg hp, if_neg hp]
        exact ih hrest
    | other =>
      rw [cleanupEmptyObjects_cons_other, lookupRec_cons, lookupRec_cons]
      by_cases hp : p1 == k
      · rw [if_pos hp, if_pos hp]
      · rw [if_neg hp, if_neg hp]
        exact ih hrest
    | obj sub =>
      rw [cleanupEmptyObjects_cons_obj, lookupRec_cons]
      by_cases hp : p1 == k
      · rw [if_pos hp]
        by_cases he : (cleanupEmptyObjects sub).isEmpty
        · rw [if_pos he]
          have hany' : (rest.any fun p => p.1 == k) = false := by
            have hk' : p1 = k := by simpa using hp
            rw [← hk']
            cases hc : rest.any (fun p => p.1 == p1)
            · rfl
            · rw [hc] at hany; exact absurd hany (by simp)
          rw [lookupRec_cleanup_none rest k hany']
          show (none : Option JValue) =
            if (cleanupEmptyObjects sub).isEmpty then none
            else some (JValue.obj (cleanupEmptyObjects sub))
          rw [if_pos he]
        · rw [if_neg he, lookupRec_cons, if_pos hp]
          show some (JValue.obj (cleanupEmptyObjects sub)) =
            if (cleanupEmptyObjects sub).isEmpty then none
            else some (JValue.obj (cleanupEmptyObjects sub))
          rw [if_neg he]
      · rw [if_neg hp]
        by_cases he : (cleanupEmptyObjects sub).isEmpty
        · rw [if_pos he]
          exact ih hrest
        · rw [if_neg he, lookupRec_cons, if_neg hp]
          exact ih hrest

theorem cleanup_empty_all (l : Fields) (hl : cleanupEmptyObjects l = []) :
    ∀ q ∈ l, ∃ s2, q.2 = JValue.obj s2 ∧ cleanupEmptyObjects s2 = [] := by
  induction l with
  | nil => intro q hq; simp at hq
  | cons p rest ih =>
    obtain ⟨p1, p2⟩ := p
    intro q hq
    cases p2 with
    | str s => rw [cleanupEmptyObjects_cons_str] at hl; simp at hl
    | other => rw [cleanupEmptyObjects_cons_other] at hl; simp at hl
    | obj sub =>
      rw [cleanupEmptyObjects_cons_obj] at hl
      by_cases he : (cleanupEmptyObjects sub).isEmpty
      · rw [if_pos he] at hl
        rcases List.mem_cons.mp hq with h1 | h1
        · refine ⟨sub, by rw [h1], ?_⟩
          simpa [List.isEmpty_iff] using he
        · exact ih hl q h1
      · rw [if_neg he] at hl
        simp at hl

theorem cleanup_empty_getParts (l : Fields) (hl : cleanupEmptyObjects l = [])
    (parts : List String) : getNestedValueParts l parts = none := by
  induction parts generalizing l with
  | nil => rfl
  | cons p rest ih =>
    cases rest with
    | nil =>
      show (match lookupField l p with
        | some (JValue.str s) => some s
        | _ => none) = none
      cases hlk : lookupField l p with
      | none => rfl
      | some v =>
        have hmem : ∃ q ∈ l, q.2 = v := by
          rw [show lookupField l p = lookupRec l p from rfl, lookupRec_eq_find] at hlk
          cases hfind : l.find? (fun q => q.1 == p) with
          | none => rw [hfind] at hlk; simp at hlk
          | some q =>
            rw [hfind] at hlk
            refine ⟨q, List.mem_of_find?_eq_some hfind, by simpa using hlk⟩
        obtain ⟨q, hql, hqv⟩ := hmem
        obtain ⟨s2, hs2, _⟩ := cleanup_empty_all l hl q hql
        rw [hqv] at hs2
        rw [hs2]
    | cons q' rest' =>
      show (match lookupField l p with
        | some (JValue.obj sub) => getNestedValueParts sub (q' :: rest')
        | _ => none) = none
      cases hlk : lookupField l p with
      | none => rfl
      | some v =>
        have hmem : ∃ q ∈ l, q.2 = v := by
          rw [show lookupField l p = lookupRec l p from rfl, lookupRec_eq_find] at hlk
          cases hfind : l.find? (fun q => q.1 == p) with
          | none => rw [hfind] at hlk; simp at hlk
          | some q =>
            rw [hfind] at hlk
            refine ⟨q, List.mem_of_find?_eq_some hfind, by simpa using hlk⟩
        obtain ⟨q, hql, hqv⟩ := hmem
        obtain ⟨s2, hs2, hs2e⟩ := cleanup_empty_all l hl q hql
        rw [hqv] at hs2
        rw [hs2]
        exact ih s2 hs2e

theorem cleanup_getParts (parts : List String) (l : Fields) (hl : nodupKeys l = true) :
    getNestedValueParts (cleanupEmptyObjects l) parts = getNestedValueParts l parts := by
  induction parts generalizing l with
  | nil => rfl
  | cons p rest ih =>
    cases rest with
    | nil =>
      show (match lookupRec (cleanupEmptyObjects l) p with
          | some (JValue.str s) => some s
          | _ => none) =
        (match lookupRec l p with
          | some (JValue.str s) => some s
          | _ => none)
      rw [cleanup_lookup l p hl]
      cases hlk : lookupRec l p with
      | none => rfl
      | some v =>
        cases v with
        | str s => rfl
        | other => rfl
        | obj sub =>
          show (match (if (cleanupEmptyObjects sub).isEmpty then none
              else some (JValue.obj (cleanupEmptyObjects sub)) : Option JValue) with
            | some (JValue.str s) => some s
            | _ => none) = (none : Option String)
          by_cases he : (cleanupEmptyObjects sub).isEmpty
          · rw [if_pos he]
          · rw [if_neg he]
    | cons q' rest' =>
      show (match lookupRec (cleanupEmptyObjects l) p with
          | some (JValue.obj sub) => getNestedValueParts sub (q' :: rest')
          | _ => none) =
        (match lookupRec l p with
          | some (JValue.obj sub) => getNestedValueParts sub (q' :: rest')
          | _ => none)
      rw [cleanup_lookup l p hl]
      cases hlk : lookupRec l p with
      | none => rfl
      | some v =>
        cases v with
        | str s => rfl
        | other => rfl
        | obj sub =>
          have hsub : nodupKeys sub = true := nodup_lookup_obj l p sub hl hlk
          show (match (if (cleanupEmptyObjects sub).isEmpty then none
              else some (JValue.obj (cleanupEmptyObjects sub)) : Option JValue) with
            | some (JValue.obj sub2) => getNestedValueParts sub2 (q' :: rest')
            | _ => none) = getNestedValueParts sub (q' :: rest')
          by_cases he : (cleanupEmptyObjects sub).isEmpty
          · rw [if_pos he]
            have hempty : cleanupEmptyObjects sub = [] := by
              simpa [List.isEmpty_iff] using he
            exact (cleanup_empty_getParts sub hempty (q' :: rest')).symm
          · rw [if_neg he]
            exact ih sub hsub

theorem noEmpty_cleanup : ∀ (l : Fields), noEmptyFields (cleanupEmptyObjects l) = true
  | [] => by rw [cleanupEmptyObjects_nil, noEmptyFields.eq_def]
  | (_, JValue.str _) :: rest => by
    rw [cleanupEmptyObjects_cons_str, noEmptyFields_cons]
    simpa using noEmpty_cleanup rest
  | (_, JValue.other) :: rest => by
    rw [cleanupEmptyObjects_cons_other, noEmptyFields_cons]
    simpa using noEmpty_cleanup rest
  | (_, JValue.obj sub) :: rest => by
    rw [cleanupEmptyObjects_cons_obj]
    by_cases he : (cleanupEmptyObjects sub).isEmpty
    · rw [if_pos he]
      exact noEmpty_cleanup rest
    · rw [if_neg he, noEmptyFields_cons]
      have h1 := noEmpty_cleanup sub
      have h2 := noEmpty_cleanup rest
      simp [he, h1, h2]

theorem cleanup_id_of_noEmpty : ∀ (l : Fields), noEmptyFields l = true →
    cleanupEmptyObjects l = l
  | [], _ => cleanupEmptyObjects_nil
  | (_, JValue.str _) :: rest, hl => by
    rw [noEmptyFields_cons] at hl
    simp only [Bool.and_eq_true] at hl
    rw [cleanupEmptyObjects_cons_str, cleanup_id_of_noEmpty rest hl.2]
  | (_, JValue.other) :: rest, hl => by
    rw [noEmptyFields_cons] at hl
    simp only [Bool.and_eq_true] at hl
    rw [cleanupEmptyObjects_cons_other, cleanup_id_of_noEmpty rest hl.2]
  | (_, JValue.obj sub) :: rest, hl => by
    rw [noEmptyFields_cons] at hl
    simp only [Bool.and_eq_true] at hl
    obtain ⟨⟨hne, hsubne⟩, hrest⟩ := hl
    rw [cleanupEmptyObjects_cons_obj, cleanup_id_of_noEmpty sub hsubne,
      if_neg (by simpa using hne), cleanup_id_of_noEmpty rest hrest]

theorem deleteAtPath_frame (parts : List String) :
    ∀ (l f' : Fields), nodupKeys l = true → deleteAtPath l parts = some f' →
    ∀ (P : List String), ¬ parts <+: P →
    getNestedValueParts f' P = getNestedValueParts l P := by
  induction parts with
  | nil => intro l f' _ hd; simp [deleteAtPath] at hd
  | cons p rest ih =>
    intro l f' hn hd P hnp
    cases rest with
    | nil =>
      simp only [deleteAtPath, Option.some.injEq] at hd
      subst hd
      cases P with
      | nil => rfl
      | cons p2 prest =>
        have hneq : ¬ p2 = p := by
          intro he
          exact hnp (by rw [← he]; exact ⟨prest, rfl⟩)
        cases prest with
        | nil =>
          show (match lookupRec (removeField l p) p2 with
            | some (JValue.str s) => some s
            | _ => none) =
            (match lookupRec l p2 with
            | some (JValue.str s) => some s
            | _ => none)
          rw [lookupRec_removeField_other l p p2 hneq]
        | cons q2 prest2 =>
          show (match lookupRec (removeField l p) p2 with
            | some (JValue.obj sub) => getNestedValueParts sub (q2 :: prest2)
            | _ => none) =
            (match lookupRec l p2 with
            | some (JValue.obj sub) => getNestedValueParts sub (q2 :: prest2)
            | _ => none)
          rw [lookupRec_removeField_other l p p2 hneq]
    | cons q rest' =>
      simp only [deleteAtPath] at hd
      cases hlk : lookupField l p with
      | none => rw [hlk] at hd; simp at hd
      | some v =>
        rw [hlk] at hd
        cases v with
        | str s => simp at hd
        | other => simp at hd
        | obj sub =>
          have hd' : (match deleteAtPath sub (q :: rest') with
              | some sub' => some (recAssignField l p (JValue.obj sub'))
              | none => none) = some f' := hd
          cases hrec : deleteAtPath sub (q :: rest') with
          | none => rw [hrec] at hd'; simp at hd'
          | some sub' =>
            rw [hrec] at hd'
            have hf : recAssignField l p (JValue.obj sub') = f' := by simpa using hd'
            subst hf
            cases P with
            | nil => rfl
            | cons p2 prest =>
              by_cases hp : p = p2
              · subst hp
                have hlk' : lookupRec l p = some (JValue.obj sub) := hlk
                cases prest with
                | nil =>
                  show (match lookupRec (recAssign l p (JValue.obj sub')) p with
                    | some (JValue.str s) => some s
                    | _ => none) =
                    (match lookupRec l p with
                    | some (JValue.str s) => some s
                    | _ => none)
                  rw [lookupRec_recAssign_self, hlk']
                | cons q2 prest2 =>
                  show (match lookupRec (recAssign l p (JValue.obj sub')) p with
                    | some (JValue.obj sub2) => getNestedValueParts sub2 (q2 :: prest2)
                    | _ => none) =
                    (match lookupRec l p with
                    | some (JValue.obj sub2) => getNestedValueParts sub2 (q2 :: prest2)
                    | _ => none)
                  rw [lookupRec_recAssign_self, hlk']
                  refine ih sub sub' (nodup_lookup_obj l p sub hn hlk') hrec
                    (q2 :: prest2) ?_
                  intro hc
                  exact hnp (List.cons_prefix_cons.mpr ⟨rfl, hc⟩)
              · cases prest with
                | nil =>
                  show (match lookupRec (recAssign l p (JValue.obj sub')) p2 with
                    | some (JValue.str s) => some s
                    | _ => none) =
                    (match lookupRec l p2 with
                    | some (JValue.str s) => some s
                    | _ => none)
                  rw [lookupRec_recAssign_other l p (JValue.obj sub') p2 hp]
                | cons q2 prest2 =>
                  show (match lookupRec (recAssign l p (JValue.obj sub')) p2 with
                    | some (JValue.obj sub2) => getNestedValueParts sub2 (q2 :: prest2)
                    | _ => none) =
                    (match lookupRec l p2 with
                    | some (JValue.obj sub2) => getNestedValueParts sub2 (q2 :: prest2)
                    | _ => none)
                  rw [lookupRec_recAssign_other l p (JValue.obj sub') p2 hp]

theorem deleteAtPath_ext_none (parts : List String) :
    ∀ (l f' : Fields), deleteAtPath l parts = some f' →
    ∀ (ext : List String), getNestedValueParts f' (parts ++ ext) = none := by
  induction parts with
  | nil => intro l f' hd; simp [deleteAtPath] at hd
  | cons p rest ih =>
    intro l f' hd ext
    cases rest with
    | nil =>
      simp only [deleteAtPath, Option.some.injEq] at hd
      subst hd
      cases ext with
      | nil =>
        show (match lookupRec (removeField l p) p with
          | some (JValue.str s) => some s
          | _ => none) = none
        rw [lookupRec_removeField_self]
      | cons e ext' =>
        show (match lookupRec (removeField l p) p with
          | some (JValue.obj sub) => getNestedValueParts sub (e :: ext')
          | _ => none) = none
        rw [lookupRec_removeField_self]
    | cons q rest' =>
      simp only [deleteAtPath] at hd
      cases hlk : lookupField l p with
      | none => rw [hlk] at hd; simp at hd
      | some v =>
        rw [hlk] at hd
        cases v with
        | str s => simp at hd
        | other => simp at hd
        | obj sub =>
          have hd' : (match deleteAtPath sub (q :: rest') with
              | some sub' => some (recAssignField l p (JValue.obj sub'))
              | none => none) = some f' := hd
          cases hrec : deleteAtPath sub (q :: rest') with
          | none => rw [hrec] at hd'; simp at hd'
          | some sub' =>
            rw [hrec] at hd'
            have hf : recAssignField l p (JValue.obj sub') = f' := by simpa using hd'
            subst hf
            show (match lookupRec (recAssign l p (JValue.obj sub')) p with
              | some (JValue.obj sub2) => getNestedValueParts sub2 (q :: (rest' ++ ext))
              | _ => none) = none
            rw [lookupRec_recAssign_self]
            exact ih sub sub' hrec ext

/-- C8 as amended: for a well-formed tree (duplicate-free keys at
every level), `deleteNestedKey` removes the addressed leaf — the
deleted dot-path reads as `undefined` afterwards — and everything not
under the deleted path is preserved: at every path that does not
extend the deleted one, the readable value is exactly what it was
before, and no value appears in the result that was not in the input.
The cleanup that follows prunes every container that is empty
afterwards — including containers that were already empty beforehand
and containers not on the deleted path, which is where the original
claim fails — so whenever the descent reached its path, no empty
container remains anywhere in the result; and when the descent hit a
missing or non-container segment the tree is returned entirely
unchanged. -/
theorem deleteNestedKey_spec (fields : Fields) (key : String)
    (hn : nodupKeys fields = true) :
    getNestedValue (deleteNestedKey fields key) key = none ∧
    (∀ P : List String, ¬ splitKey key <+: P →
      getNestedValueParts (deleteNestedKey fields key) P =
        getNestedValueParts fields P) ∧
    (∀ (P : List String) (s : String),
      getNestedValueParts (deleteNestedKey fields key) P = some s →
      getNestedValueParts fields P = some s) ∧
    (∀ f', deleteAtPath fields (splitKey key) = some f' →
      noEmptyFields (deleteNestedKey fields key) = true) ∧
    (deleteAtPath fields (splitKey key) = none →
      deleteNestedKey fields key = fields) := by
  refine ⟨?_, ?_, ?_, ?_, ?_⟩
  · unfold deleteNestedKey getNestedValue
    cases hd : deleteAtPath fields (splitKey key) with
    | none =>
      have hwalk : ∀ (parts : List String) (l : Fields), deleteAtPath l parts = none →
          getNestedValueParts l parts = none := by
        intro parts
        induction parts with
        | nil => intro l _; rfl
        | cons p rest ih =>
          intro l hdel
          cases rest with
          | nil => simp [deleteAtPath] at hdel
          | cons q rest' =>
            simp only [deleteAtPath] at hdel
            show (match lookupField l p with
              | some (JValue.obj sub) => getNestedValueParts sub (q :: rest')
              | _ => none) = none
            cases hlk : lookupField l p with
            | none => rfl
            | some v =>
              rw [hlk] at hdel
              cases v with
              | str s => rfl
              | other => rfl
              | obj sub =>
                have hdel' : (match deleteAtPath sub (q :: rest') with
                    | some sub' => some (recAssignField l p (JValue.obj sub'))
                    | none => none) = none := hdel
                cases hrec : deleteAtPath sub (q :: rest') with
                | some sub' => rw [hrec] at hdel'; simp at hdel'
                | none => exact ih sub hrec
      exact hwalk (splitKey key) fields hd
    | some f =>
      have hfn : nodupKeys f = true := deleteAtPath_nodup (splitKey key) fields f hn hd
      rw [cleanup_getParts (splitKey key) f hfn]
      exact deleteAtPath_getNone (splitKey key) fields f hd
  · intro P hP
    unfold deleteNestedKey
    cases hd : deleteAtPath fields (splitKey key) with
    | none => rfl
    | some f' =>
      rw [cleanup_getParts P f' (deleteAtPath_nodup (splitKey key) fields f' hn hd)]
      exact deleteAtPath_frame (splitKey key) fields f' hn hd P hP
  · intro P s hs
    cases hd : deleteAtPath fields (splitKey key) with
    | none =>
      have he : deleteNestedKey fields key = fields := by
        unfold deleteNestedKey
        rw [hd]
      rw [he] at hs
      exact hs
    | some f' =>
      have he : deleteNestedKey fields key = cleanupEmptyObjects f' := by
        unfold deleteNestedKey
        rw [hd]
      rw [he] at hs
      have hfn := deleteAtPath_nodup (splitKey key) fields f' hn hd
      rw [cleanup_getParts P f' hfn] at hs
      by_cases hP : splitKey key <+: P
      · obtain ⟨ext, hext⟩ := hP
        rw [← hext, deleteAtPath_ext_none (splitKey key) fields f' hd ext] at hs
        exact absurd hs (by simp)
      · rw [deleteAtPath_frame (splitKey key) fields f' hn hd P hP] at hs
        exact hs
  · intro f' hd
    have he : deleteNestedKey fields key = cleanupEmptyObjects f' := by
      unfold deleteNestedKey
      rw [hd]
    rw [he]
    exact noEmpty_cleanup f'
  · intro hd
    unfold deleteNestedKey
    rw [hd]

/-- C8 witness: the amended statement applied to the concrete tree
`{a: {}, b: {c: "x", d: "y"}}` and the path `b.c`. -/
theorem deleteNestedKey_spec_witness :
    nodupKeys [("a", JValue.obj []),
        ("b", JValue.obj [("c", JValue.str "x"), ("d", JValue.str "y")])] = true ∧
    (getNestedValue
        (deleteNestedKey
          [("a", JValue.obj []),
            ("b", JValue.obj [("c", JValue.str "x"), ("d", JValue.str "y")])] "b.c")
        "b.c" = none ∧
     (∀ P : List String, ¬ splitKey "b.c" <+: P →
       getNestedValueParts
         (deleteNestedKey
           [("a", JValue.obj []),
             ("b", JValue.obj [("c", JValue.str "x"), ("d", JValue.str "y")])] "b.c") P =
       getNestedValueParts
         [("a", JValue.obj []),
           ("b", JValue.obj [("c", JValue.str "x"), ("d", JValue.str "y")])] P) ∧
     (∀ (P : List String) (s : String),
       getNestedValueParts
         (deleteNestedKey
           [("a", JValue.obj []),
             ("b", JValue.obj [("c", JValue.str "x"), ("d", JValue.str "y")])] "b.c") P =
         some s →
       getNestedValueParts
         [("a", JValue.obj []),
           ("b", JValue.obj [("c", JValue.str "x"), ("d", JValue.str "y")])] P = some s) ∧
     (∀ f', deleteAtPath
         [("a", JValue.obj []),
           ("b", JValue.obj [("c", JValue.str "x"), ("d", JValue.str "y")])]
         (splitKey "b.c") = some f' →
       noEmptyFields
         (deleteNestedKey
           [("a", JValue.obj []),
             ("b", JValue.obj [("c", JValue.str "x"), ("d", JValue.str "y")])] "b.c") =
         true) ∧
     (deleteAtPath
         [("a", JValue.obj []),
           ("b", JValue.obj [("c", JValue.str "x"), ("d", JValue.str "y")])]
         (splitKey "b.c") = none →
       deleteNestedKey
         [("a", JValue.obj []),
           ("b", JValue.obj [("c", JValue.str "x"), ("d", JValue.str "y")])] "b.c" =
       [("a", JValue.obj []),
         ("b", JValue.obj [("c", JValue.str "x"), ("d", JValue.str "y")])])) := by
  have hnodup : nodupKeys [("a", JValue.obj []),
      ("b", JValue.obj [("c", JValue.str "x"), ("d", JValue.str "y")])] = true := by
    simp [nodupKeys_cons, nodupKeys_nil]
  exact ⟨hnodup, deleteNestedKey_spec
    [("a", JValue.obj []),
      ("b", JValue.obj [("c", JValue.str "x"), ("d", JValue.str "y")])] "b.c" hnodup⟩

/-! ### Lock snapshot values (C2, C10) -/

theorem saveLockFold_frame (sourceData : Fields) (skippedKeys : List String)
    (previousValues : SRecord) (keys : List String) :
    ∀ (acc : SRecord) (k : String), (∀ x ∈ keys, ¬ x = k) →
    lookupStr (keys.foldl (fun acc key =>
      match lockEntry sourceData skippedKeys previousValues key with
      | some v => recAssignStr acc key v
      | none => acc) acc) k = lookupStr acc k := by
  induction keys with
  | nil => intro acc k _; rfl
  | cons key rest ih =>
    intro acc k hne
    rw [List.foldl_cons]
    rw [ih _ k (fun x hx => hne x (List.mem_cons_of_mem _ hx))]
    cases lockEntry sourceData skippedKeys previousValues key with
    | some v =>
      exact lookupRec_recAssign_other acc key v k (hne key (List.mem_cons_self _ _))
    | none => rfl

theorem saveLockFold_value (sourceData : Fields) (skippedKeys : List String)
    (previousValues : SRecord) (keys : List String) :
    ∀ (acc : SRecord) (k : String), k ∈ keys → keys.Nodup →
    lookupStr (keys.foldl (fun acc key =>
      match lockEntry sourceData skippedKeys previousValues key with
      | some v => recAssignStr acc key v
      | none => acc) acc) k =
      (match lockEntry sourceData skippedKeys previousValues k with
      | some v => some v
      | none => lookupStr acc k) := by
  induction keys with
  | nil => intro acc k hk; simp at hk
  | cons key rest ih =>
    intro acc k hk hnd
    rw [List.foldl_cons]
    have hnd' := List.nodup_cons.mp hnd
    rcases List.mem_cons.mp hk with he | hm
    · subst he
      have hnotin : ∀ x ∈ rest, ¬ x = k := by
        intro x hx he2
        exact hnd'.1 (he2 ▸ hx)
      rw [saveLockFold_frame sourceData skippedKeys previousValues rest _ k hnotin]
      cases hE : lockEntry sourceData skippedKeys previousValues k with
      | some v => exact lookupRec_recAssign_self acc k v
      | none => rfl
    · have hk2 : ¬ key = k := fun he2 => hnd'.1 (he2 ▸ hm)
      rw [ih _ k hm hnd'.2]
      cases hE2 : lockEntry sourceData skippedKeys previousValues key with
      | some w =>
        cases hE : lockEntry sourceData skippedKeys previousValues k with
        | some v => rfl
        | none => exact lookupRec_recAssign_other acc key w k hk2
      | none => rfl

theorem saveLockFold_mem (sourceData : Fields) (skippedKeys : List String)
    (previousValues : SRecord) (keys : List String) :
    ∀ (acc : SRecord) (q : String × String),
    q ∈ keys.foldl (fun acc key =>
      match lockEntry sourceData skippedKeys previousValues key with
      | some v => recAssignStr acc key v
      | none => acc) acc →
    q ∈ acc ∨ (q.1 ∈ keys ∧
      lockEntry sourceData skippedKeys previousValues q.1 = some q.2) := by
  induction keys with
  | nil => intro acc q hq; exact Or.inl hq
  | cons key rest ih =>
    intro acc q hq
    rw [List.foldl_cons] at hq
    rcases ih _ q hq with h1 | h1
    · cases hE : lockEntry sourceData skippedKeys previousValues key with
      | some v =>
        rw [hE] at h1
        have h1' : q ∈ recAssignStr acc key v := h1
        rcases mem_recAssign acc key v q h1' with h2 | h2
        · subst h2
          exact Or.inr ⟨List.mem_cons_self _ _, hE⟩
        · exact Or.inl h2
      | none =>
        rw [hE] at h1
        have h1' : q ∈ acc := h1
        exact Or.inl h1'
    · exact Or.inr ⟨List.mem_cons_of_mem _ h1.1, h1.2⟩

theorem mdFold_frame (skippedSet : List String) (previousHashes : SRecord)
    (files : List (String × String)) :
    ∀ (acc : SRecord) (k : String), (∀ pf ∈ files, ¬ pf.1 = k) →
    lookupStr (files.foldl (fun acc pf =>
      if skippedSet.contains pf.1 ∧ (lookupStr previousHashes pf.1).isSome then
        match lookupStr previousHashes pf.1 with
        | some prev => recAssignStr acc pf.1 prev
        | none => recAssignStr acc pf.1 pf.2
      else recAssignStr acc pf.1 pf.2) acc) k = lookupStr acc k := by
  induction files with
  | nil => intro acc k _; rfl
  | cons pf rest ih =>
    intro acc k hne
    rw [List.foldl_cons]
    rw [ih _ k (fun x hx => hne x (List.mem_cons_of_mem _ hx))]
    have hpf : ¬ pf.1 = k := hne pf (List.mem_cons_self _ _)
    by_cases hc : skippedSet.contains pf.1 ∧ (lookupStr previousHashes pf.1).isSome
    · rw [if_pos hc]
      cases lookupStr previousHashes pf.1 with
      | some prev => exact lookupRec_recAssign_other acc pf.1 prev k hpf
      | none => exact lookupRec_recAssign_other acc pf.1 pf.2 k hpf
    · rw [if_neg hc]
      exact lookupRec_recAssign_other acc pf.1 pf.2 k hpf

theorem mdFold_value (skippedSet : List String) (previousHashes : SRecord)
    (files : List (String × String)) :
    ∀ (acc : SRecord) (p h : String), (p, h) ∈ files → (files.map Prod.fst).Nodup →
    lookupStr (files.foldl (fun acc pf =>
      if skippedSet.contains pf.1 ∧ (lookupStr previousHashes pf.1).isSome then
        match lookupStr previousHashes pf.1 with
        | some prev => recAssignStr acc pf.1 prev
        | none => recAssignStr acc pf.1 pf.2
      else recAssignStr acc pf.1 pf.2) acc) p =
      (if skippedSet.contains p ∧ (lookupStr previousHashes p).isSome then
        lookupStr previousHashes p
      else some h) := by
  induction files with
  | nil => intro acc p h hp; simp at hp
  | cons pf rest ih =>
    intro acc p h hp hnd
    rw [List.map_cons] at hnd
    have hnd' := List.nodup_cons.mp hnd
    rw [List.foldl_cons]
    rcases List.mem_cons.mp hp with he | hm
    · have hpf1 : pf.1 = p := by rw [← he]
      have hpf2 : pf.2 = h := by rw [← he]
      have hnotin : ∀ x ∈ rest, ¬ x.1 = p := by
        intro x hx he2
        have hmm : p ∈ List.map Prod.fst rest := he2 ▸ List.mem_map_of_mem Prod.fst hx
        exact hnd'.1 (hpf1.symm ▸ hmm)
      rw [hpf1, hpf2]
      rw [mdFold_frame skippedSet previousHashes rest _ p hnotin]
      by_cases hc : skippedSet.contains p ∧ (lookupStr previousHashes p).isSome
      · rw [if_pos hc, if_pos hc]
        cases hprev : lookupStr previousHashes p with
        | some prev => exact lookupRec_recAssign_self acc p prev
        | none =>
          rw [hprev] at hc
          simp at hc
      · rw [if_neg hc, if_neg hc]
        exact lookupRec_recAssign_self acc p h
    · have hk2 : ¬ pf.1 = p :=
        fun he2 => hnd'.1 (he2 ▸ List.mem_map_of_mem Prod.fst hm)
      rw [ih _ p h hm hnd'.2]

/-- C2: when a run skips a set of changed units, the persisted
snapshot maps each skipped unit that had a previous snapshot value to
that previous value, and every non-skipped source unit to its current
source value (tree mode) respectively current content hash (markdown
mode); source key lists and file lists are duplicate-free as produced
from JS objects and a file system walk. -/
theorem lockSnapshot_skip_spec :
    (∀ (sourceData : Fields) (sourceKeys skippedKeys : List String)
        (previousValues : SRecord) (key : String),
      sourceKeys.Nodup → key ∈ sourceKeys →
      ((∀ pv, key ∈ skippedKeys → lookupStr previousValues key = some pv →
          lookupStr (saveLockJsonValues sourceData sourceKeys skippedKeys previousValues)
            key = some pv) ∧
        (key ∉ skippedKeys →
          lookupStr (saveLockJsonValues sourceData sourceKeys skippedKeys previousValues)
            key = getNestedValue sourceData key))) ∧
    (∀ (files : List (String × String)) (skippedSet : List String)
        (previousHashes : SRecord) (p h : String),
      (files.map Prod.fst).Nodup → (p, h) ∈ files →
      ((∀ ph, p ∈ skippedSet → lookupStr previousHashes p = some ph →
          lookupStr (mdNextValues files skippedSet previousHashes) p = some ph) ∧
        (p ∉ skippedSet →
          lookupStr (mdNextValues files skippedSet previousHashes) p = some h))) := by
  constructor
  · intro sourceData sourceKeys skippedKeys previousValues key hnd hmem
    have hval := saveLockFold_value sourceData skippedKeys previousValues sourceKeys
      [] key hmem hnd
    constructor
    · intro pv hskip hprev
      show lookupStr (saveLockJsonValues sourceData sourceKeys skippedKeys previousValues)
        key = some pv
      rw [show saveLockJsonValues sourceData sourceKeys skippedKeys previousValues =
        sourceKeys.foldl (fun acc key =>
          match lockEntry sourceData skippedKeys previousValues key with
          | some v => recAssignStr acc key v
          | none => acc) [] from rfl, hval]
      have hE : lockEntry sourceData skippedKeys previousValues key = some pv := by
        unfold lockEntry
        rw [if_pos ⟨List.elem_iff.mpr hskip, by rw [hprev]; rfl⟩]
        exact hprev
      rw [hE]
    · intro hnskip
      rw [show saveLockJsonValues sourceData sourceKeys skippedKeys previousValues =
        sourceKeys.foldl (fun acc key =>
          match lockEntry sourceData skippedKeys previousValues key with
          | some v => recAssignStr acc key v
          | none => acc) [] from rfl, hval]
      have hE : lockEntry sourceData skippedKeys previousValues key =
          getNestedValue sourceData key := by
        unfold lockEntry
        rw [if_neg (fun hc => hnskip (List.elem_iff.mp hc.1))]
      rw [hE]
      cases getNestedValue sourceData key with
      | some v => rfl
      | none => rfl
  · intro files skippedSet previousHashes p h hnd hmem
    have hval := mdFold_value skippedSet previousHashes files [] p h hmem hnd
    constructor
    · intro ph hskip hprev
      show lookupStr (mdNextValues files skippedSet previousHashes) p = some ph
      rw [show mdNextValues files skippedSet previousHashes =
        files.foldl (fun acc pf =>
          if skippedSet.contains pf.1 ∧ (lookupStr previousHashes pf.1).isSome then
            match lookupStr previousHashes pf.1 with
            | some prev => recAssignStr acc pf.1 prev
            | none => recAssignStr acc pf.1 pf.2
          else recAssignStr acc pf.1 pf.2) [] from rfl, hval]
      rw [if_pos ⟨List.elem_iff.mpr hskip, by rw [hprev]; rfl⟩]
      exact hprev
    · intro hnskip
      rw [show mdNextValues files skippedSet previousHashes =
        files.foldl (fun acc pf =>
          if skippedSet.contains pf.1 ∧ (lookupStr previousHashes pf.1).isSome then
            match lookupStr previousHashes pf.1 with
            | some prev => recAssignStr acc pf.1 prev
            | none => recAssignStr acc pf.1 pf.2
          else recAssignStr acc pf.1 pf.2) [] from rfl, hval]
      rw [if_neg (fun hc => hnskip (List.elem_iff.mp hc.1))]

/-- C2 witness: a two-key source where `greeting` is skipped and keeps
its previous snapshot value while `farewell` is written with its
current source value, and a one-file markdown tree where the skipped
file keeps its previous hash. -/
theorem lockSnapshot_skip_spec_witness :
    lookupStr (saveLockJsonValues
        [("greeting", JValue.str "Hello World"), ("farewell", JValue.str "Bye")]
        ["greeting", "farewell"] ["greeting"] [("greeting", "Hello")])
      "greeting" = some "Hello" ∧
    lookupStr (saveLockJsonValues
        [("greeting", JValue.str "Hello World"), ("farewell", JValue.str "Bye")]
        ["greeting", "farewell"] ["greeting"] [("greeting", "Hello")])
      "farewell" = some "Bye" ∧
    lookupStr (mdNextValues [("a.md", "h2")] ["a.md"] [("a.md", "h1")]) "a.md" =
      some "h1" := by
  refine ⟨?_, ?_, ?_⟩
  · exact ((lockSnapshot_skip_spec.1
      [("greeting", JValue.str "Hello World"), ("farewell", JValue.str "Bye")]
      ["greeting", "farewell"] ["greeting"] [("greeting", "Hello")] "greeting"
      (by decide) (by decide)).1 "Hello" (by decide) (by rfl))
  · have := ((lockSnapshot_skip_spec.1
      [("greeting", JValue.str "Hello World"), ("farewell", JValue.str "Bye")]
      ["greeting", "farewell"] ["greeting"] [("greeting", "Hello")] "farewell"
      (by decide) (by decide)).2 (by decide))
    rw [this]
    rfl
  · exact ((lockSnapshot_skip_spec.2
      [("a.md", "h2")] ["a.md"] [("a.md", "h1")] "a.md" "h2"
      (by decide) (by decide)).1 "h1" (by decide) (by rfl))

/-- C10: every entry of the persisted json values map has a key from
the current source key list, and its value is either the previous
snapshot value of a skipped key or the current (string) source value
of the key; keys absent from the source, and source keys whose value
is not a string, have no entry. -/
theorem saveLockJsonValues_domain (sourceData : Fields)
    (sourceKeys skippedKeys : List String) (previousValues : SRecord)
    (q : String × String)
    (hq : q ∈ saveLockJsonValues sourceData sourceKeys skippedKeys previousValues) :
    q.1 ∈ sourceKeys ∧
      ((q.1 ∈ skippedKeys ∧ lookupStr previousValues q.1 = some q.2) ∨
        getNestedValue sourceData q.1 = some q.2) := by
  rcases saveLockFold_mem sourceData skippedKeys previousValues sourceKeys [] q hq
    with h1 | h1
  · simp at h1
  · refine ⟨h1.1, ?_⟩
    have hE := h1.2
    unfold lockEntry at hE
    by_cases hc : skippedKeys.contains q.1 ∧ (lookupStr previousValues q.1).isSome
    · rw [if_pos hc] at hE
      exact Or.inl ⟨List.elem_iff.mp hc.1, hE⟩
    · rw [if_neg hc] at hE
      exact Or.inr hE

/-- C10 witness: the domain characterization applied to a source where
one key is skipped with a previous value, one key is a live string,
one key is a non-string leaf (no entry), and the previous snapshot
holds a stale key that gets pruned. -/
theorem saveLockJsonValues_domain_witness :
    (("greeting", "Hello") ∈ saveLockJsonValues
        [("greeting", JValue.str "Hi"), ("count", JValue.other)]
        ["greeting", "count"] ["greeting"] [("greeting", "Hello"), ("stale", "old")]) ∧
    ("greeting" ∈ (["greeting", "count"] : List String) ∧
      (("greeting" ∈ (["greeting"] : List String) ∧
        lookupStr [("greeting", "Hello"), ("stale", "old")] "greeting" = some "Hello") ∨
        getNestedValue [("greeting", JValue.str "Hi"), ("count", JValue.other)]
          "greeting" = some "Hello")) := by
  have hmem : (("greeting", "Hello") : String × String) ∈ saveLockJsonValues
      [("greeting", JValue.str "Hi"), ("count", JValue.other)]
      ["greeting", "count"] ["greeting"] [("greeting", "Hello"), ("stale", "old")] := by
    show ("greeting", "Hello") ∈ List.foldl _ _ _
    rw [List.foldl_cons, List.foldl_cons, List.foldl_nil]
    rw [show lockEntry [("greeting", JValue.str "Hi"), ("count", JValue.other)]
        ["greeting"] [("greeting", "Hello"), ("stale", "old")] "greeting" =
      some "Hello" from rfl]
    rw [show lockEntry [("greeting", JValue.str "Hi"), ("count", JValue.other)]
        ["greeting"] [("greeting", "Hello"), ("stale", "old")] "count" =
      none from rfl]
    show ("greeting", "Hello") ∈ recAssignStr [] "greeting" "Hello"
    rw [show recAssignStr [] "greeting" "Hello" = [("greeting", "Hello")] from rfl]
    exact List.mem_singleton.mpr rfl
  exact ⟨hmem, saveLockJsonValues_domain
    [("greeting", JValue.str "Hi"), ("count", JValue.other)]
    ["greeting", "count"] ["greeting"] [("greeting", "Hello"), ("stale", "old")]
    ("greeting", "Hello") hmem⟩

/-! ### Force mode (C3) -/

theorem mdReview_frozen (dec : Decisions) (changedFiles : List String)
    (frozen : List String) :
    (mdReview dec changedFiles frozen).2.2 =
      frozen ++ changedFiles.filter (fun p => dec.perUnit p == PerAction.freeze) := by
  induction changedFiles generalizing frozen with
  | nil => simp [mdReview]
  | cons p rest ih =>
    unfold mdReview
    cases hact : dec.perUnit p with
    | retranslate =>
      rw [List.filter_cons]
      simp only [hact]
      rw [if_neg (by simp)]
      exact ih frozen
    | skip =>
      rw [List.filter_cons]
      simp only [hact]
      rw [if_neg (by simp)]
      exact ih frozen
    | freeze =>
      rw [List.filter_cons]
      simp only [hact]
      rw [if_pos (by simp)]
      rw [ih (frozen ++ [p]), List.append_assoc]
      rfl

/-- C3 counterexample: a forced markdown run with trackChanges =
carefully, one changed source file, a previously frozen entry `b.md`,
and a collaborator that chooses review and freezes the file, persists
the non-empty frozen set `[a.md]`; the claim that the persisted frozen
set is empty for every forced run is false at this input. -/
theorem forceRetranslate_claim_false :
    (mdResolve true TrackChanges.carefully [("a.md", "h2")] [("a.md", "h1")] ["b.md"]
      ⟨GlobalAction.review, fun _ => PerAction.freeze⟩).frozenSet = ["a.md"] ∧
    (["a.md"] : List String) ≠ [] := by
  constructor
  · rw [show mdResolve true TrackChanges.carefully [("a.md", "h2")] [("a.md", "h1")]
        ["b.md"] ⟨GlobalAction.review, fun _ => PerAction.freeze⟩ =
      ⟨(mdReview ⟨GlobalAction.review, fun _ => PerAction.freeze⟩ ["a.md"] []).1,
        (mdReview ⟨GlobalAction.review, fun _ => PerAction.freeze⟩ ["a.md"] []).2.1,
        (mdReview ⟨GlobalAction.review, fun _ => PerAction.freeze⟩ ["a.md"] []).2.2⟩
      from by rfl]
    rw [show (mdReview ⟨GlobalAction.review, fun _ => PerAction.freeze⟩ ["a.md"] []) =
      ([], ["a.md"], ["a.md"]) from by unfold mdReview; rfl]
  · simp

/-- C3 as amended: with forceRetranslate = true, (a) in tree mode the
frozen key set passed to the lock save is exactly empty (force skips
the interactive phase entirely), and in markdown mode every unit in
the persisted frozen set was newly frozen by this run's
carefully-mode review (the previously persisted frozen set is cleared
and can only be repopulated by review decisions of the same run); and
(b) every source unit currently present in a target is placed in the
set sent for retranslation — in tree mode every source key with a
defined target value is in the translated key set, and in markdown
mode every file is written. -/
theorem forceRetranslate_spec :
    (∀ (trackChanges : TrackChanges) (sourceData : Fields) (sourceKeys : List String)
        (lockValues : SRecord) (lockFrozen : List String) (dec : Decisions),
      (jsonResolve true trackChanges sourceData sourceKeys lockValues lockFrozen
        dec).2.2 = []) ∧
    (∀ (targetData : Fields) (sourceKeys : List String) (key : String),
      key ∈ sourceKeys → (getNestedValue targetData key).isSome = true →
      key ∈ forceAllKeysToTranslate targetData sourceKeys) ∧
    (∀ (trackChanges : TrackChanges) (files : List (String × String))
        (previousHashes : SRecord) (previousFrozen : List String) (dec : Decisions)
        (p : String),
      p ∈ (mdResolve true trackChanges files previousHashes previousFrozen
          dec).frozenSet →
      (trackChanges = TrackChanges.carefully ∧ dec.globalAction = GlobalAction.review ∧
        dec.perUnit p = PerAction.freeze ∧ p ∈ mdChangedFiles files previousHashes [])) ∧
    (∀ (frozenSet skippedSet changedSet : List String) (hasTarget : Bool) (p : String),
      mdShouldWrite true frozenSet skippedSet changedSet hasTarget p = true) := by
  refine ⟨fun _ _ _ _ _ _ => rfl, ?_, ?_, ?_⟩
  · intro targetData sourceKeys key hmem hsome
    unfold forceAllKeysToTranslate
    refine List.mem_append.mpr (Or.inr ?_)
    unfold forceKeysToUpdate
    exact List.mem_filter.mpr ⟨hmem, hsome⟩
  · intro trackChanges files previousHashes previousFrozen dec p hp
    unfold mdResolve at hp
    by_cases ht : trackChanges = TrackChanges.on
    · rw [if_pos ht] at hp
      simp at hp
    · rw [if_neg ht] at hp
      by_cases hc : trackChanges = TrackChanges.carefully ∧
          mdChangedFiles files previousHashes (if true then [] else previousFrozen) ≠ []
      · rw [if_pos hc] at hp
        cases hg : dec.globalAction with
        | retranslateAll => rw [hg] at hp; simp at hp
        | skipAll => rw [hg] at hp; simp at hp
        | review =>
          rw [hg] at hp
          have hp' : p ∈ (mdReview dec
              (mdChangedFiles files previousHashes (if true then [] else previousFrozen))
              (if true then [] else previousFrozen)).2.2 := hp
          rw [mdReview_frozen] at hp'
          have hp2 : p ∈ (mdChangedFiles files previousHashes
              (if true then [] else previousFrozen)).filter
              (fun q => dec.perUnit q == PerAction.freeze) := by
            rcases List.mem_append.mp hp' with h1 | h1
            · simp at h1
            · exact h1
          have hp3 := List.mem_filter.mp hp2
          refine ⟨hc.1, hg ▸ rfl, by simpa using hp3.2, by simpa using hp3.1⟩
      · rw [if_neg hc] at hp
        simp at hp
  · intro frozenSet skippedSet changedSet hasTarget p
    unfold mdShouldWrite
    simp

/-- C3 witness: the amended statement applied to concrete runs — a
forced tree run keeps no frozen keys and retranslates the present
key, and in a forced markdown run with a freeze decision the frozen
unit is exactly the reviewed changed file, while every file is
written. -/
theorem forceRetranslate_spec_witness :
    (jsonResolve true TrackChanges.carefully [("greeting", JValue.str "Hi")]
      ["greeting"] [("greeting", "Hello")] ["greeting"]
      ⟨GlobalAction.review, fun _ => PerAction.freeze⟩).2.2 = [] ∧
    "greeting" ∈ forceAllKeysToTranslate [("greeting", JValue.str "Bonjour")]
      ["greeting"] ∧
    (TrackChanges.carefully = TrackChanges.carefully ∧
      GlobalAction.review = GlobalAction.review ∧
      (fun (_ : String) => PerAction.freeze) "a.md" = PerAction.freeze ∧
      "a.md" ∈ mdChangedFiles [("a.md", "h2")] [("a.md", "h1")] []) ∧
    mdShouldWrite true ["a.md"] ["a.md"] [] true "a.md" = true := by
  refine ⟨forceRetranslate_spec.1 TrackChanges.carefully [("greeting", JValue.str "Hi")]
      ["greeting"] [("greeting", "Hello")] ["greeting"]
      ⟨GlobalAction.review, fun _ => PerAction.freeze⟩,
    forceRetranslate_spec.2.1 [("greeting", JValue.str "Bonjour")] ["greeting"]
      "greeting" (by decide) (by rfl),
    forceRetranslate_spec.2.2.1 TrackChanges.carefully [("a.md", "h2")]
      [("a.md", "h1")] ["b.md"] ⟨GlobalAction.review, fun _ => PerAction.freeze⟩
      "a.md" ?_,
    forceRetranslate_spec.2.2.2 ["a.md"] ["a.md"] [] true "a.md"⟩
  rw [(forceRetranslate_claim_false).1]
  exact List.mem_singleton.mpr rfl

/-! ### Rate-limit retry and chunk granularity (C4) -/

theorem chunksOf_nil (bs : Nat) : chunksOf bs ([] : List String) = [] := by
  rw [chunksOf.eq_def]

theorem chunksOf_single (bs : Nat) (l : List String) (hne : l ≠ [])
    (hlen : l.length ≤ bs) : chunksOf bs l = [l] := by
  cases l with
  | nil => exact absurd rfl hne
  | cons x xs =>
    cases bs with
    | zero => simp at hlen
    | succ b =>
      rw [chunksOf.eq_def]
      show List.take (b + 1) (x :: xs) :: chunksOf (b + 1) (List.drop (b + 1) (x :: xs)) =
        [x :: xs]
      rw [List.take_of_length_le hlen, List.drop_eq_nil_of_le hlen, chunksOf_nil]

theorem translateBatchWithRetry_err_step (oracle : Oracle) (batch : SRecord)
    (lang : String) (r : Nat) (attempt : Nat) (m : String)
    (h0 : oracle batch lang attempt = OracleResult.err m)
    (hrate : isRateLimitMsg m = true) :
    translateBatchWithRetry oracle batch lang (r + 1) attempt =
      ((translateBatchWithRetry oracle batch lang r (attempt + 1)).1,
        (translateBatchWithRetry oracle batch lang r (attempt + 1)).2 + 1) := by
  rw [translateBatchWithRetry.eq_def, h0]
  show (if isRateLimitMsg m = true then
      let rec' := translateBatchWithRetry oracle batch lang r (attempt + 1)
      (rec'.1, rec'.2 + 1)
    else (Except.error m, 1)) =
    ((translateBatchWithRetry oracle batch lang r (attempt + 1)).1,
      (translateBatchWithRetry oracle batch lang r (attempt + 1)).2 + 1)
  rw [if_pos hrate]

theorem translateBatchWithRetry_ok (oracle : Oracle) (batch : SRecord)
    (lang : String) (retries attempt : Nat) (b : SRecord)
    (h : oracle batch lang attempt = OracleResult.ok b) :
    translateBatchWithRetry oracle batch lang retries attempt = (Except.ok b, 1) := by
  rw [translateBatchWithRetry.eq_def, h]

theorem translateBatchWithRetry_noRetry (oracle : Oracle) (batch : SRecord)
    (lang : String) (retries attempt : Nat) (m : String)
    (h0 : oracle batch lang attempt = OracleResult.err m)
    (hrate : isRateLimitMsg m = false) :
    translateBatchWithRetry oracle batch lang retries attempt = (Except.error m, 1) := by
  rw [translateBatchWithRetry.eq_def, h0]
  cases retries with
  | zero => rfl
  | succ r =>
    show (if isRateLimitMsg m = true then
        let rec' := translateBatchWithRetry oracle batch lang r (attempt + 1)
        (rec'.1, rec'.2 + 1)
      else (Except.error m, 1)) = (Except.error m, 1)
    rw [if_neg (by rw [hrate]; simp)]

theorem translateChunks_nil (oracle : Oracle) (sourceData : Fields) (lang : String)
    (maxRetries : Nat) (target : Fields) :
    translateChunks oracle sourceData lang maxRetries [] target = ⟨target, 0, 0, 0⟩ := rfl

theorem translateChunks_cons_ok (oracle : Oracle) (sourceData : Fields) (lang : String)
    (maxRetries : Nat) (chunk : List String) (rest : List (List String))
    (target : Fields) (b : SRecord) (n : Nat)
    (h : translateBatchWithRetry oracle (buildBatch sourceData chunk) lang maxRetries 0 =
      (Except.ok b, n)) :
    translateChunks oracle sourceData lang maxRetries (chunk :: rest) target =
      (let res := translateChunks oracle sourceData lang maxRetries rest
        (mergeBatch target b)
      ⟨res.target, res.translated + b.length, res.failed, res.calls + n⟩) := by
  rw [translateChunks, h]

theorem translateChunks_cons_err (oracle : Oracle) (sourceData : Fields) (lang : String)
    (maxRetries : Nat) (chunk : List String) (rest : List (List String))
    (target : Fields) (m : String) (n : Nat)
    (h : translateBatchWithRetry oracle (buildBatch sourceData chunk) lang maxRetries 0 =
      (Except.error m, n)) :
    translateChunks oracle sourceData lang maxRetries (chunk :: rest) target =
      (let res := translateChunks oracle sourceData lang maxRetries rest target
      ⟨res.target, res.translated, res.failed + chunk.length, res.calls + n⟩) := by
  rw [translateChunks, h]

/-- C4: an oracle that fails once for a chunk with a rate-limit
("429") message and then succeeds is invoked exactly twice for that
chunk, and the chunk counts as translated with no failures; a
non-rate-limit error is never retried; an oracle that keeps returning
rate-limit errors is retried until the budget is exhausted
(maxRetries + 1 invocations) and ends in the error; and whenever the
retrying wrapper ends in an error, the whole chunk — every key in it
— is added to the failed count and nothing of it is merged
(failure is chunk-granular, never per-unit). -/
theorem translateBatchWithRetry_spec :
    (∀ (oracle : Oracle) (batch : SRecord) (lang : String) (retries : Nat)
        (m : String) (b : SRecord),
      oracle batch lang 0 = OracleResult.err m → isRateLimitMsg m = true →
      oracle batch lang 1 = OracleResult.ok b → 1 ≤ retries →
      translateBatchWithRetry oracle batch lang retries 0 = (Except.ok b, 2)) ∧
    (∀ (oracle : Oracle) (keys : List String) (sourceData target : Fields)
        (lang : String) (batchSize maxRetries : Nat) (m : String) (b : SRecord),
      keys ≠ [] → keys.length ≤ batchSize →
      oracle (buildBatch sourceData keys) lang 0 = OracleResult.err m →
      isRateLimitMsg m = true →
      oracle (buildBatch sourceData keys) lang 1 = OracleResult.ok b →
      1 ≤ maxRetries →
      translateKeys oracle keys sourceData target lang batchSize maxRetries =
        ⟨mergeBatch target b, b.length, 0, 2⟩) ∧
    (∀ (oracle : Oracle) (batch : SRecord) (lang : String) (retries : Nat) (m : String),
      oracle batch lang 0 = OracleResult.err m → isRateLimitMsg m = false →
      translateBatchWithRetry oracle batch lang retries 0 = (Except.error m, 1)) ∧
    (∀ (oracle : Oracle) (batch : SRecord) (lang : String) (retries attempt : Nat),
      (∀ j, j ≤ retries → ∃ m, oracle batch lang (attempt + j) = OracleResult.err m ∧
        isRateLimitMsg m = true) →
      ∃ m, oracle batch lang (attempt + retries) = OracleResult.err m ∧
        translateBatchWithRetry oracle batch lang retries attempt =
          (Except.error m, retries + 1)) ∧
    (∀ (oracle : Oracle) (keys : List String) (sourceData target : Fields)
        (lang : String) (batchSize maxRetries : Nat) (m : String) (n : Nat),
      keys ≠ [] → keys.length ≤ batchSize →
      translateBatchWithRetry oracle (buildBatch sourceData keys) lang maxRetries 0 =
        (Except.error m, n) →
      translateKeys oracle keys sourceData target lang batchSize maxRetries =
        ⟨target, 0, keys.length, n⟩) := by
  have hok2 : ∀ (oracle : Oracle) (batch : SRecord) (lang : String) (retries : Nat)
      (m : String) (b : SRecord),
      oracle batch lang 0 = OracleResult.err m → isRateLimitMsg m = true →
      oracle batch lang 1 = OracleResult.ok b → 1 ≤ retries →
      translateBatchWithRetry oracle batch lang retries 0 = (Except.ok b, 2) := by
    intro oracle batch lang retries m b h0 hrate h1 hr
    cases retries with
    | zero => omega
    | succ r =>
      rw [translateBatchWithRetry_err_step oracle batch lang r 0 m h0 hrate]
      rw [translateBatchWithRetry_ok oracle batch lang r 1 b h1]
  refine ⟨hok2, ?_, ?_, ?_, ?_⟩
  · intro oracle keys sourceData target lang batchSize maxRetries m b hne hlen h0 hrate
      h1 hr
    unfold translateKeys
    rw [chunksOf_single batchSize keys hne hlen]
    rw [translateChunks_cons_ok oracle sourceData lang maxRetries keys [] target b 2
      (hok2 oracle (buildBatch sourceData keys) lang maxRetries m b h0 hrate h1 hr)]
    rw [translateChunks_nil]
    simp
  · intro oracle batch lang retries m h0 hrate
    exact translateBatchWithRetry_noRetry oracle batch lang retries 0 m h0 hrate
  · intro oracle batch lang retries attempt
    induction retries generalizing attempt with
    | zero =>
      intro h
      obtain ⟨m, hm, hrate⟩ := h 0 (Nat.le_refl 0)
      refine ⟨m, by simpa using hm, ?_⟩
      rw [translateBatchWithRetry.eq_def]
      rw [show oracle batch lang attempt = OracleResult.err m from by simpa using hm]
    | succ r ih =>
      intro h
      obtain ⟨m0, hm0, hrate0⟩ := h 0 (Nat.zero_le _)
      have hm0' : oracle batch lang attempt = OracleResult.err m0 := by simpa using hm0
      obtain ⟨m, hm, hres⟩ := ih (attempt + 1) (fun j hj => by
        obtain ⟨m', hm', hrate'⟩ := h (j + 1) (by omega)
        exact ⟨m', by rw [show attempt + 1 + j = attempt + (j + 1) from by omega]; exact
          hm', hrate'⟩)
      refine ⟨m, by rw [show attempt + (r + 1) = attempt + 1 + r from by omega]; exact
        hm, ?_⟩
      rw [translateBatchWithRetry_err_step oracle batch lang r attempt m0 hm0' hrate0]
      rw [hres]
  · intro oracle keys sourceData target lang batchSize maxRetries m n hne hlen herr
    unfold translateKeys
    rw [chunksOf_single batchSize keys hne hlen]
    rw [translateChunks_cons_err oracle sourceData lang maxRetries keys [] target m n
      herr]
    rw [translateChunks_nil]
    simp

/-- C4 witness: a concrete chunk of one key whose oracle rate-limits
once and then succeeds gives exactly 2 invocations and a translated
count of 1, and a sibling run whose oracle fails fatally marks the
whole chunk failed with a single invocation. -/
theorem translateBatchWithRetry_spec_witness :
    translateKeys
      (fun _ _ attempt => if attempt = 0 then OracleResult.err "HTTP 429: rate limited"
        else OracleResult.ok [("greeting", "Bonjour")])
      ["greeting"] [("greeting", JValue.str "Hello")] [] "fr" 200 3 =
      ⟨mergeBatch [] [("greeting", "Bonjour")], 1, 0, 2⟩ ∧
    translateKeys
      (fun _ _ _ => OracleResult.err "HTTP 500: boom")
      ["greeting"] [("greeting", JValue.str "Hello")] [] "fr" 200 3 =
      ⟨[], 0, 1, 1⟩ := by
  constructor
  · exact translateBatchWithRetry_spec.2.1
      (fun _ _ attempt => if attempt = 0 then OracleResult.err "HTTP 429: rate limited"
        else OracleResult.ok [("greeting", "Bonjour")])
      ["greeting"] [("greeting", JValue.str "Hello")] [] "fr" 200 3
      "HTTP 429: rate limited" [("greeting", "Bonjour")]
      (by simp) (by simp) (by rfl) (by decide) (by rfl) (by omega)
  · exact translateBatchWithRetry_spec.2.2.2.2
      (fun _ _ _ => OracleResult.err "HTTP 500: boom")
      ["greeting"] [("greeting", JValue.str "Hello")] [] "fr" 200 3
      "HTTP 500: boom" 1 (by simp) (by simp)
      (translateBatchWithRetry_spec.2.2.1
        (fun _ _ _ => OracleResult.err "HTTP 500: boom")
        (buildBatch [("greeting", JValue.str "Hello")] ["greeting"]) "fr" 3
        "HTTP 500: boom" (by rfl) (by decide))

/-! ### Empty-source-value keys (C9) -/

theorem getParts_nil (parts : List String) :
    getNestedValueParts [] parts = none := by
  cases parts with
  | nil => rfl
  | cons p rest => cases rest <;> rfl

theorem getParts_append_of_some (f : Fields) (P : List String) (s : String)
    (h : getNestedValueParts f P = some s) (Q : List String) (hQ : Q ≠ []) :
    getNestedValueParts f (P ++ Q) = none := by
  induction P generalizing f with
  | nil => simp [getNestedValueParts] at h
  | cons p rest ih =>
    cases rest with
    | nil =>
      have h' : (match lookupField f p with
        | some (JValue.str s) => some s
        | _ => none) = some s := h
      cases Q with
      | nil => exact absurd rfl hQ
      | cons q qrest =>
        show (match lookupField f p with
          | some (JValue.obj sub) => getNestedValueParts sub (q :: qrest)
          | _ => none) = none
        cases hlk : lookupField f p with
        | none => rfl
        | some v =>
          cases v with
          | str s2 => rfl
          | obj sub => simp [hlk] at h'
          | other => rfl
    | cons p2 prest =>
      have h' : (match lookupField f p with
        | some (JValue.obj sub) => getNestedValueParts sub (p2 :: prest)
        | _ => none) = some s := h
      show (match lookupField f p with
        | some (JValue.obj sub) => getNestedValueParts sub ((p2 :: prest) ++ Q)
        | _ => none) = none
      cases hlk : lookupField f p with
      | none => simp [hlk] at h'
      | some v =>
        cases v with
        | str s2 => simp [hlk] at h'
        | other => simp [hlk] at h'
        | obj sub =>
          rw [hlk] at h'
          exact ih sub h'

theorem getParts_eq_of_prefix (f : Fields) (P Q : List String) (a b : String)
    (hpre : P <+: Q) (ha : getNestedValueParts f P = some a)
    (hb : getNestedValueParts f Q = some b) : P = Q := by
  obtain ⟨R, hR⟩ := hpre
  cases hRnil : R with
  | nil => rw [hRnil] at hR; simpa using hR
  | cons r rrest =>
    rw [hRnil] at hR
    rw [← hR] at hb
    rw [getParts_append_of_some f P a ha (r :: rrest) (by simp)] at hb
    exact absurd hb (by simp)

theorem getParts_setParts_nil (Q : List String) (P : List String) (v : JValue)
    (hQP : ¬ Q <+: P) (hPQ : ¬ P <+: Q) :
    getNestedValueParts (setNestedValueParts [] Q v) P = none := by
  induction Q generalizing P with
  | nil => exact absurd List.nil_prefix hQP
  | cons q1 qtail ih =>
    cases qtail with
    | nil =>
      show getNestedValueParts (recAssignField [] q1 v) P = none
      cases P with
      | nil => rfl
      | cons p prest =>
        cases prest with
        | nil =>
          by_cases hp : p = q1
          · exact absurd (by rw [hp] : [p] <+: [q1]) hPQ
          · show (match lookupField (recAssignField [] q1 v) p with
              | some (JValue.str s) => some s
              | _ => none) = none
            rw [show lookupField (recAssignField [] q1 v) p =
              lookupRec (recAssign [] q1 v) p from rfl]
            rw [lookupRec_recAssign_other [] q1 v p (fun he => hp he.symm)]
            rfl
        | cons p2 prest2 =>
          by_cases hp : q1 = p
          · exact absurd (by rw [hp]; exact ⟨p2 :: prest2, rfl⟩) hQP
          · show (match lookupField (recAssignField [] q1 v) p with
              | some (JValue.obj sub) => getNestedValueParts sub (p2 :: prest2)
              | _ => none) = none
            rw [show lookupField (recAssignField [] q1 v) p =
              lookupRec (recAssign [] q1 v) p from rfl]
            rw [lookupRec_recAssign_other [] q1 v p hp]
            rfl
    | cons q2 qrest =>
      show getNestedValueParts
        (recAssignField [] q1 (JValue.obj (setNestedValueParts []
          (q2 :: qrest) v))) P = none
      cases P with
      | nil => rfl
      | cons p prest =>
        cases prest with
        | nil =>
          show (match lookupField (recAssignField [] q1 _) p with
            | some (JValue.str s) => some s
            | _ => none) = none
          by_cases hp : q1 = p
          · rw [show lookupField (recAssignField [] q1 (JValue.obj
                (setNestedValueParts [] (q2 :: qrest) v))) p =
              lookupRec (recAssign [] q1 (JValue.obj
                (setNestedValueParts [] (q2 :: qrest) v))) p from rfl]
            rw [← hp, lookupRec_recAssign_self]
          · rw [show lookupField (recAssignField [] q1 (JValue.obj
                (setNestedValueParts [] (q2 :: qrest) v))) p =
              lookupRec (recAssign [] q1 (JValue.obj
                (setNestedValueParts [] (q2 :: qrest) v))) p from rfl]
            rw [lookupRec_recAssign_other [] q1 _ p hp]
            rfl
        | cons p2 prest2 =>
          show (match lookupField (recAssignField [] q1 _) p with
            | some (JValue.obj sub) => getNestedValueParts sub (p2 :: prest2)
            | _ => none) = none
          by_cases hp : q1 = p
          · rw [show lookupField (recAssignField [] q1 (JValue.obj
                (setNestedValueParts [] (q2 :: qrest) v))) p =
              lookupRec (recAssign [] q1 (JValue.obj
                (setNestedValueParts [] (q2 :: qrest) v))) p from rfl]
            rw [← hp, lookupRec_recAssign_self]
            refine ih (p2 :: prest2) (fun hc => hQP ?_) (fun hc => hPQ ?_)
            · exact List.cons_prefix_cons.mpr ⟨hp, hc⟩
            · exact List.cons_prefix_cons.mpr ⟨hp.symm, hc⟩
          · rw [show lookupField (recAssignField [] q1 (JValue.obj
                (setNestedValueParts [] (q2 :: qrest) v))) p =
              lookupRec (recAssign [] q1 (JValue.obj
                (setNestedValueParts [] (q2 :: qrest) v))) p from rfl]
            rw [lookupRec_recAssign_other [] q1 _ p hp]
            rfl

theorem splitDot_ne_nil (l : List Char) : splitDot l ≠ [] := by
  cases l with
  | nil => simp [splitDot]
  | cons c rest =>
    simp only [splitDot]
    cases splitDot rest with
    | nil => simp
    | cons p ps => by_cases h : c = '.' <;> simp [h]

theorem joinDot_head (c : Char) (p : List Char) (ps : List (List Char)) :
    joinDot ((c :: p) :: ps) = c :: joinDot (p :: ps) := by
  cases ps <;> rfl

theorem joinDot_splitDot (l : List Char) : joinDot (splitDot l) = l := by
  induction l with
  | nil => rfl
  | cons c rest ih =>
    simp only [splitDot]
    cases hs : splitDot rest with
    | nil => exact absurd hs (splitDot_ne_nil rest)
    | cons p ps =>
      rw [hs] at ih
      show joinDot (if c = '.' then [] :: p :: ps else (c :: p) :: ps) = c :: rest
      by_cases h : c = '.'
      · rw [if_pos h, h]
        have hstep : joinDot ([] :: p :: ps) = [] ++ '.' :: joinDot (p :: ps) := rfl
        rw [hstep, ih]
        rfl
      · rw [if_neg h, joinDot_head, ih]

theorem map_data_mk (l : List (List Char)) :
    (l.map (fun cs => String.mk cs)).map String.data = l := by
  induction l with
  | nil => rfl
  | cons x xs ih =>
    have hstep : ((x :: xs).map (fun cs => String.mk cs)).map String.data =
        (String.mk x).data :: (xs.map (fun cs => String.mk cs)).map String.data := rfl
    rw [hstep, ih]

theorem splitKey_inj (k1 k2 : String) (h : splitKey k1 = splitKey k2) : k1 = k2 := by
  have h2 : ((splitDot k1.data).map (fun cs => String.mk cs)).map String.data =
      ((splitDot k2.data).map (fun cs => String.mk cs)).map String.data :=
    congrArg (fun l => l.map String.data) h
  rw [map_data_mk, map_data_mk] at h2
  have h3 := congrArg joinDot h2
  rw [joinDot_splitDot, joinDot_splitDot] at h3
  cases k1
  cases k2
  exact congrArg String.mk h3

theorem getParts_recAssign_other (t : Fields) (k : String) (v : JValue) (p : String)
    (rest : List String) (hp : ¬ k = p) :
    getNestedValueParts (recAssignField t k v) (p :: rest) =
      getNestedValueParts t (p :: rest) := by
  cases rest with
  | nil =>
    show (match lookupRec (recAssign t k v) p with
      | some (JValue.str s2) => some s2
      | _ => none) =
      (match lookupRec t p with
      | some (JValue.str s2) => some s2
      | _ => none)
    rw [lookupRec_recAssign_other t k v p hp]
  | cons p2 rest2 =>
    show (match lookupRec (recAssign t k v) p with
      | some (JValue.obj sub) => getNestedValueParts sub (p2 :: rest2)
      | _ => none) =
      (match lookupRec t p with
      | some (JValue.obj sub) => getNestedValueParts sub (p2 :: rest2)
      | _ => none)
    rw [lookupRec_recAssign_other t k v p hp]

theorem getParts_recAssign_self_str (t : Fields) (k : String) (s : String)
    (p2 : String) (rest : List String) :
    getNestedValueParts (recAssignField t k (JValue.str s)) (k :: p2 :: rest) = none := by
  show (match lookupRec (recAssign t k (JValue.str s)) k with
    | some (JValue.obj sub) => getNestedValueParts sub (p2 :: rest)
    | _ => none) = none
  rw [lookupRec_recAssign_self]

theorem getParts_recAssign_self_obj_single (t : Fields) (k : String) (sub : Fields) :
    getNestedValueParts (recAssignField t k (JValue.obj sub)) [k] = none := by
  show (match lookupRec (recAssign t k (JValue.obj sub)) k with
    | some (JValue.str s2) => some s2
    | _ => none) = none
  rw [lookupRec_recAssign_self]

theorem getParts_recAssign_self_obj (t : Fields) (k : String) (sub : Fields)
    (p2 : String) (rest : List String) :
    getNestedValueParts (recAssignField t k (JValue.obj sub)) (k :: p2 :: rest) =
      getNestedValueParts sub (p2 :: rest) := by
  show (match lookupRec (recAssign t k (JValue.obj sub)) k with
    | some (JValue.obj sub2) => getNestedValueParts sub2 (p2 :: rest)
    | _ => none) = getNestedValueParts sub (p2 :: rest)
  rw [lookupRec_recAssign_self]

theorem getParts_setParts_str_none (Q : List String) (s : String) :
    ∀ (t : Fields) (P : List String), getNestedValueParts t P = none → P ≠ Q →
      getNestedValueParts (setNestedValueParts t Q (JValue.str s)) P = none := by
  induction Q with
  | nil => intro t P hP _; exact hP
  | cons q1 qtail ih =>
    intro t P hP hne
    cases qtail with
    | nil =>
      show getNestedValueParts (recAssignField t q1 (JValue.str s)) P = none
      cases P with
      | nil => rfl
      | cons p prest =>
        by_cases hp : q1 = p
        · cases prest with
          | nil => exact absurd (by rw [hp]) hne
          | cons p2 prest2 =>
            rw [hp]
            exact getParts_recAssign_self_str t p s p2 prest2
        · rw [getParts_recAssign_other t q1 (JValue.str s) p prest hp]
          exact hP
    | cons q2 qrest =>
      have hset : setNestedValueParts t (q1 :: q2 :: qrest) (JValue.str s) =
          recAssignField t q1 (JValue.obj (setNestedValueParts
            (match lookupField t q1 with
              | some (JValue.obj s2) => s2
              | _ => []) (q2 :: qrest) (JValue.str s))) := rfl
      rw [hset]
      cases P with
      | nil => rfl
      | cons p prest =>
        by_cases hp : q1 = p
        · cases prest with
          | nil =>
            rw [hp]
            exact getParts_recAssign_self_obj_single t p _
          | cons p2 prest2 =>
            rw [hp, getParts_recAssign_self_obj t p _ p2 prest2]
            have hP' : (match lookupField t p with
              | some (JValue.obj sub) => getNestedValueParts sub (p2 :: prest2)
              | _ => none) = none := hP
            have hsub : getNestedValueParts (match lookupField t p with
                | some (JValue.obj s2) => s2
                | _ => []) (p2 :: prest2) = none := by
              cases hlk : lookupField t p with
              | none => exact getParts_nil (p2 :: prest2)
              | some v =>
                cases v with
                | str s2 => exact getParts_nil (p2 :: prest2)
                | other => exact getParts_nil (p2 :: prest2)
                | obj s0 =>
                  rw [hlk] at hP'
                  exact hP'
            exact ih _ (p2 :: prest2) hsub
              (fun hc => hne (by rw [hp, hc]))
        · rw [getParts_recAssign_other t q1 _ p prest hp]
          exact hP

theorem buildBatch_fold_none (sourceData : Fields) (keys : List String)
    (key : String) (hsrc : ∀ v, getNestedValue sourceData key = some v → v = "") :
    ∀ acc : SRecord, lookupStr acc key = none →
      lookupStr (keys.foldl (fun a k =>
        match getNestedValue sourceData k with
        | some v => if v = "" then a else recAssignStr a k v
        | none => a) acc) key = none := by
  induction keys with
  | nil => intro acc hacc; exact hacc
  | cons k ks ih =>
    intro acc hacc
    rw [List.foldl_cons]
    refine ih _ ?_
    cases hg : getNestedValue sourceData k with
    | none => exact hacc
    | some v =>
      show lookupStr (if v = "" then acc else recAssignStr acc k v) key = none
      by_cases hv : v = ""
      · rw [if_pos hv]
        exact hacc
      · rw [if_neg hv]
        by_cases hk : k = key
        · exact absurd (hsrc v (hk ▸ hg)) hv
        · show lookupRec (recAssign acc k v) key = none
          rw [lookupRec_recAssign_other acc k v key hk]
          exact hacc

theorem buildBatch_none (sourceData : Fields) (chunk : List String) (key : String)
    (hsrc : ∀ v, getNestedValue sourceData key = some v → v = "") :
    lookupStr (buildBatch sourceData chunk) key = none :=
  buildBatch_fold_none sourceData chunk key hsrc [] rfl

theorem translateBatchWithRetry_ok_oracle (oracle : Oracle) (batch : SRecord)
    (lang : String) (retries : Nat) (b : SRecord) :
    ∀ attempt, (translateBatchWithRetry oracle batch lang retries attempt).1 =
        Except.ok b →
      ∃ m, oracle batch lang m = OracleResult.ok b := by
  induction retries with
  | zero =>
    intro attempt h
    cases h0 : oracle batch lang attempt with
    | ok b2 =>
      rw [translateBatchWithRetry_ok oracle batch lang 0 attempt b2 h0] at h
      have h' : Except.ok b2 = Except.ok b := h
      injection h' with hb
      exact ⟨attempt, hb ▸ h0⟩
    | err m =>
      rw [translateBatchWithRetry.eq_def, h0] at h
      have h' : Except.error m = Except.ok b := h
      exact absurd h' (by simp)
  | succ r ih =>
    intro attempt h
    cases h0 : oracle batch lang attempt with
    | ok b2 =>
      rw [translateBatchWithRetry_ok oracle batch lang (r + 1) attempt b2 h0] at h
      have h' : Except.ok b2 = Except.ok b := h
      injection h' with hb
      exact ⟨attempt, hb ▸ h0⟩
    | err m =>
      by_cases hrate : isRateLimitMsg m = true
      · rw [translateBatchWithRetry_err_step oracle batch lang r attempt m h0 hrate] at h
        exact ih (attempt + 1) h
      · have hrate' : isRateLimitMsg m = false := by
          cases hb : isRateLimitMsg m with
          | false => rfl
          | true => exact absurd hb hrate
        rw [translateBatchWithRetry_noRetry oracle batch lang (r + 1) attempt m h0 hrate'] at h
        have h' : Except.error m = Except.ok b := h
        exact absurd h' (by simp)

theorem lookupRec_isSome_of_mem {α : Type} (l : List (String × α)) (kv : String × α)
    (h : kv ∈ l) : (lookupRec l kv.1).isSome = true := by
  rw [lookupRec_eq_find]
  cases hf : l.find? (fun p => p.1 == kv.1) with
  | none =>
    rw [List.find?_eq_none] at hf
    exact absurd (by simp : ((fun p : String × α => p.1 == kv.1) kv) = true) (hf kv h)
  | some q => rfl

theorem mergeBatch_none (key : String) (b : SRecord) :
    ∀ t : Fields, getNestedValue t key = none → (∀ kv ∈ b, kv.1 ≠ key) →
      getNestedValue (mergeBatch t b) key = none := by
  induction b with
  | nil =>
    intro t hkey _
    exact hkey
  | cons kv rest ih =>
    intro t hkey hb
    show getNestedValue (mergeBatch (setNestedValue t kv.1 (JValue.str kv.2)) rest) key = none
    refine ih (setNestedValue t kv.1 (JValue.str kv.2)) ?_
      (fun kv2 h2 => hb kv2 (List.mem_cons_of_mem kv h2))
    show getNestedValueParts (setNestedValueParts t (splitKey kv.1) (JValue.str kv.2))
      (splitKey key) = none
    exact getParts_setParts_str_none (splitKey kv.1) kv.2 t (splitKey key) hkey
      (fun hc => hb kv (List.mem_cons_self kv rest) (splitKey_inj kv.1 key hc.symm))

theorem translateChunks_none (oracle : Oracle) (sourceData : Fields) (lang : String)
    (maxRetries : Nat) (key : String)
    (hsrc : ∀ v, getNestedValue sourceData key = some v → v = "")
    (horacle : ∀ batch lang2 n b, oracle batch lang2 n = OracleResult.ok b →
      ∀ kv ∈ b, (lookupStr batch kv.1).isSome = true) :
    ∀ (chunks : List (List String)) (t : Fields), getNestedValue t key = none →
      getNestedValue (translateChunks oracle sourceData lang maxRetries chunks t).target
        key = none := by
  intro chunks
  induction chunks with
  | nil =>
    intro t ht
    exact ht
  | cons chunk rest ih =>
    intro t ht
    cases hres : translateBatchWithRetry oracle (buildBatch sourceData chunk)
        lang maxRetries 0 with
    | mk e n =>
      cases e with
      | ok b =>
        rw [translateChunks_cons_ok oracle sourceData lang maxRetries chunk rest t b n hres]
        have h1 : (translateBatchWithRetry oracle (buildBatch sourceData chunk)
            lang maxRetries 0).1 = Except.ok b := by rw [hres]
        obtain ⟨att, hatt⟩ := translateBatchWithRetry_ok_oracle oracle
          (buildBatch sourceData chunk) lang maxRetries b 0 h1
        have hbkeys : ∀ kv ∈ b, kv.1 ≠ key := by
          intro kv hkv heq
          have hs := horacle (buildBatch sourceData chunk) lang att b hatt kv hkv
          rw [heq, buildBatch_none sourceData chunk key hsrc] at hs
          exact absurd hs (by simp)
        exact ih (mergeBatch t b) (mergeBatch_none key b t ht hbkeys)
      | error m =>
        rw [translateChunks_cons_err oracle sourceData lang maxRetries chunk rest t m n hres]
        exact ih t ht

/-- C9: a key whose source value is `undefined` or the empty string is
filtered out of every oracle payload `translateKeys` builds (the JS
truthiness test `if (value)` drops it), and — provided the oracle only
returns keys that were present in the payload it was sent — such a key
that is absent from the target tree is still absent after the whole
run: it is never sent to the oracle and never written to the target. -/
theorem translateKeys_emptyValue_spec (oracle : Oracle) (keysToTranslate : List String)
    (sourceData target : Fields) (localeCode : String) (batchSize maxRetries : Nat)
    (key : String)
    (hsrc : ∀ v, getNestedValue sourceData key = some v → v = "")
    (htarget : getNestedValue target key = none)
    (horacle : ∀ batch lang2 n b, oracle batch lang2 n = OracleResult.ok b →
      ∀ kv ∈ b, (lookupStr batch kv.1).isSome = true) :
    (∀ chunk ∈ chunksOf batchSize keysToTranslate,
      lookupStr (buildBatch sourceData chunk) key = none) ∧
    getNestedValue (translateKeys oracle keysToTranslate sourceData target
      localeCode batchSize maxRetries).target key = none := by
  constructor
  · intro chunk _
    exact buildBatch_none sourceData chunk key hsrc
  · exact translateChunks_none oracle sourceData localeCode maxRetries key hsrc horacle
      (chunksOf batchSize keysToTranslate) target htarget

theorem translateKeys_emptyValue_spec_witness :
    (∀ v, getNestedValue [("a", JValue.str ""), ("b", JValue.str "hi")] "a" =
      some v → v = "") ∧
    ((∀ chunk ∈ chunksOf 2 ["a", "b"],
      lookupStr (buildBatch [("a", JValue.str ""), ("b", JValue.str "hi")] chunk)
        "a" = none) ∧
    getNestedValue (translateKeys (fun batch _ _ => OracleResult.ok batch) ["a", "b"]
      [("a", JValue.str ""), ("b", JValue.str "hi")] [] "fr" 2 1).target "a" = none) :=
  ⟨fun v hv => by
      have h : some "" = some v := hv
      injection h with h2
      exact h2.symm,
   translateKeys_emptyValue_spec (fun batch _ _ => OracleResult.ok batch) ["a", "b"]
    [("a", JValue.str ""), ("b", JValue.str "hi")] [] "fr" 2 1 "a"
    (fun v hv => by
      have h : some "" = some v := hv
      injection h with h2
      exact h2.symm)
    rfl
    (by
      intro batch lang2 n b hb kv hkv
      have hb' : OracleResult.ok batch = OracleResult.ok b := hb
      injection hb' with hb2
      rw [← hb2] at hkv
      exact lookupRec_isSome_of_mem batch kv hkv)⟩

/-! ### Code-block protection lemmas (C6) -/

theorem hasSub_iff (pat x : List Char) :
    hasSub pat x = true ↔ ∃ n, pat <+: x.drop n := by
  induction x with
  | nil =>
    show pat.isEmpty = true ↔ _
    constructor
    · intro h
      exact ⟨0, by simp [List.isEmpty_iff.mp h]⟩
    · rintro ⟨n, hn⟩
      simp at hn
      simp [hn]
  | cons c rest ih =>
    show (pat.isPrefixOf (c :: rest) || hasSub pat rest) = true ↔ _
    rw [Bool.or_eq_true, List.isPrefixOf_iff_prefix, ih]
    constructor
    · rintro (h | ⟨n, hn⟩)
      · exact ⟨0, h⟩
      · exact ⟨n + 1, hn⟩
    · rintro ⟨n, hn⟩
      cases n with
      | zero => exact Or.inl hn
      | succ n => exact Or.inr ⟨n, hn⟩

theorem replaceSub_nil (pat repl : List Char) : replaceSub pat repl [] = [] := by
  rw [replaceSub.eq_def]

theorem replaceSub_exact (pat repl b : List Char) (hpat : pat ≠ []) :
    replaceSub pat repl (pat ++ b) = repl ++ replaceSub pat repl b := by
  cases pat with
  | nil => exact absurd rfl hpat
  | cons c pat' =>
    rw [replaceSub.eq_def]
    show (if h : (c :: pat') ≠ [] ∧ (c :: pat').isPrefixOf (c :: (pat' ++ b)) then
        repl ++ replaceSub (c :: pat') repl ((c :: (pat' ++ b)).drop (c :: pat').length)
      else c :: replaceSub (c :: pat') repl (pat' ++ b)) =
      repl ++ replaceSub (c :: pat') repl b
    rw [dif_pos ⟨by simp, by
      rw [List.isPrefixOf_iff_prefix]
      exact ⟨b, by simp⟩⟩]
    rw [show (c :: (pat' ++ b)).drop (c :: pat').length = b from List.drop_left (c :: pat') b]

theorem replaceSub_skip (pat repl : List Char) (a b : List Char)
    (hocc : ∀ n, n < a.length → ¬ (pat <+: (a.drop n ++ b))) :
    replaceSub pat repl (a ++ b) = a ++ replaceSub pat repl b := by
  induction a with
  | nil => rfl
  | cons c a' ih =>
    rw [replaceSub.eq_def]
    show (if h : pat ≠ [] ∧ pat.isPrefixOf (c :: (a' ++ b)) then
        repl ++ replaceSub pat repl ((c :: (a' ++ b)).drop pat.length)
      else c :: replaceSub pat repl (a' ++ b)) = (c :: a') ++ replaceSub pat repl b
    rw [dif_neg]
    · rw [ih (fun n hn => hocc (n + 1) (by simp [List.length_cons]; omega))]
      rfl
    · intro hcon
      exact hocc 0 (by simp) (List.isPrefixOf_iff_prefix.mp hcon.2)

theorem replaceSub_no_occ (pat repl a : List Char)
    (hocc : ∀ n, n < a.length → ¬ pat <+: a.drop n) :
    replaceSub pat repl a = a := by
  have h := replaceSub_skip pat repl a [] (fun n hn => by simpa using hocc n hn)
  rw [List.append_nil] at h
  rw [h, replaceSub_nil, List.append_nil]

theorem natToDigits_ne_nil (n : Nat) : natToDigits n ≠ [] := by
  rw [natToDigits.eq_def]
  split
  · simp
  · simp

theorem digitChar_mem (d : Nat) (h : d < 10) :
    digitChar d ∈ ['0', '1', '2', '3', '4', '5', '6', '7', '8', '9'] := by
  interval_cases d <;> decide

theorem natToDigits_mem (n : Nat) :
    ∀ c ∈ natToDigits n, c ∈ ['0', '1', '2', '3', '4', '5', '6', '7', '8', '9'] := by
  induction n using Nat.strong_induction_on with
  | _ n ih =>
    rw [natToDigits.eq_def]
    split
    · rename_i h
      intro c hc
      simp only [List.mem_singleton] at hc
      subst hc
      exact digitChar_mem n h
    · rename_i h
      intro c hc
      rw [List.mem_append] at hc
      cases hc with
      | inl h1 => exact ih (n / 10) (Nat.div_lt_self (by omega) (by norm_num)) c h1
      | inr h2 =>
        simp only [List.mem_singleton] at h2
        subst h2
        exact digitChar_mem (n % 10) (Nat.mod_lt n (by omega))

theorem natToDigits_no_underscore (n : Nat) : '_' ∉ natToDigits n := by
  intro h
  exact absurd (natToDigits_mem n '_' h) (by decide)

theorem natToDigits_no_backtick (n : Nat) : '`' ∉ natToDigits n := by
  intro h
  exact absurd (natToDigits_mem n '`' h) (by decide)

theorem digitsVal_append (l : List Char) (c : Char) :
    digitsVal (l ++ [c]) = 10 * digitsVal l + (c.toNat - 48) := by
  unfold digitsVal
  rw [List.foldl_append]
  rfl

theorem digitChar_toNat (d : Nat) (h : d < 10) : (digitChar d).toNat = 48 + d := by
  interval_cases d <;> decide

theorem digitsVal_natToDigits (n : Nat) : digitsVal (natToDigits n) = n := by
  induction n using Nat.strong_induction_on with
  | _ n ih =>
    rw [natToDigits.eq_def]
    split
    · rename_i h
      show digitsVal [digitChar n] = n
      unfold digitsVal
      show 10 * 0 + ((digitChar n).toNat - 48) = n
      rw [digitChar_toNat n h]
      omega
    · rename_i h
      rw [digitsVal_append, ih (n / 10) (Nat.div_lt_self (by omega) (by norm_num)),
        digitChar_toNat (n % 10) (Nat.mod_lt n (by omega))]
      omega

theorem natToDigits_inj (a b : Nat) (h : natToDigits a = natToDigits b) : a = b := by
  rw [← digitsVal_natToDigits a, ← digitsVal_natToDigits b, h]

theorem tokenChars_eq (i : Nat) :
    tokenChars i = tokenPrefixChars ++ natToDigits i ++ ['_', '_'] := rfl

theorem border_tpc (v : List Char) (hpre : v <+: tokenPrefixChars)
    (hsuf : v <:+ tokenPrefixChars) (hne : v ≠ []) (hproper : v ≠ tokenPrefixChars) :
    v = ['_'] := by
  have htake : v = tokenPrefixChars.take v.length := List.prefix_iff_eq_take.mp hpre
  have hdrop : v = tokenPrefixChars.drop (tokenPrefixChars.length - v.length) :=
    List.suffix_iff_eq_drop.mp hsuf
  have hlen17 : tokenPrefixChars.length = 17 := by decide
  rw [hlen17] at hdrop
  have hlen : v.length ≤ 17 := hlen17 ▸ hpre.length_le
  have h0 : v.length ≠ 0 := fun h => hne (List.eq_nil_of_length_eq_zero h)
  have h17 : v.length ≠ 17 := by
    intro h
    exact hproper (by
      rw [htake, h]
      decide)
  have hkey : ∀ m, m < 17 → 0 < m →
      tokenPrefixChars.take m = tokenPrefixChars.drop (17 - m) → m = 1 := by decide
  have hm := hkey v.length (by omega) (by omega) (htake.symm.trans hdrop)
  rw [htake, hm]
  decide

theorem suffix_append_cases (u a b : List Char) (h : u <:+ a ++ b) :
    u <:+ b ∨ ∃ v, v ≠ [] ∧ v <:+ a ∧ u = v ++ b := by
  have hlen := h.length_le
  rw [List.suffix_iff_eq_drop, List.drop_append_eq_append_drop] at h
  simp only [List.length_append] at h hlen
  by_cases hN : a.length ≤ a.length + b.length - u.length
  · left
    rw [List.drop_eq_nil_of_le hN, List.nil_append] at h
    rw [h]
    exact List.drop_suffix _ _
  · right
    refine ⟨a.drop (a.length + b.length - u.length), ?_, List.drop_suffix _ _, ?_⟩
    · intro hcon
      have := congrArg List.length hcon
      simp only [List.length_drop, List.length_nil] at this
      omega
    · have hz : a.length + b.length - u.length - a.length = 0 := by omega
      rw [hz, List.drop_zero] at h
      exact h

theorem tpc_prefix_drop_token (i n : Nat)
    (h : tokenPrefixChars <+: (tokenChars i).drop n) : n = 0 := by
  by_contra hn0
  rw [tokenChars_eq, List.drop_append_eq_append_drop,
    List.drop_append_eq_append_drop] at h
  have hlen17 : tokenPrefixChars.length = 17 := by decide
  simp only [List.length_append, hlen17] at h
  by_cases hn : n ≤ 16
  · -- the dropped prefix-part is a nonempty proper border of the prefix
    have hz1 : n - 17 = 0 := by omega
    have hz2 : n - (17 + (natToDigits i).length) = 0 := by omega
    rw [hz1, hz2, List.drop_zero, List.drop_zero] at h
    have hds : tokenPrefixChars.drop n <:+ tokenPrefixChars := List.drop_suffix _ _
    have hdp : tokenPrefixChars.drop n <+: tokenPrefixChars := by
      have h' : tokenPrefixChars <+:
          tokenPrefixChars.drop n ++ (natToDigits i ++ ['_', '_']) := by
        rw [← List.append_assoc]
        exact h
      refine List.prefix_of_prefix_length_le (List.prefix_append _ _) h' ?_
      simp only [List.length_drop]
      omega
    have hdne : tokenPrefixChars.drop n ≠ [] := by
      intro hcon
      have := congrArg List.length hcon
      simp only [List.length_drop, List.length_nil, hlen17] at this
      omega
    have hdpr : tokenPrefixChars.drop n ≠ tokenPrefixChars := by
      intro hcon
      have := congrArg List.length hcon
      simp only [List.length_drop, hlen17] at this
      omega
    have hb := border_tpc _ hdp hds hdne hdpr
    rw [hb] at h
    -- now the prefix must sit inside '_' :: digits :: "__"
    have h2 : ('_' :: '_' :: "PGK_CODE_BLOCK_".data) <+:
        ('_' :: (natToDigits i ++ ['_', '_'])) := h
    have h3 := (List.cons_prefix_cons.mp h2).2
    cases hD : natToDigits i with
    | nil => exact absurd hD (natToDigits_ne_nil i)
    | cons d D' =>
      rw [hD] at h3
      have h4 := (List.cons_prefix_cons.mp h3).1
      exact natToDigits_no_underscore i (hD ▸ (h4 ▸ List.mem_cons_self d D'))
  · -- dropped past the whole prefix: head is a digit or the tail is too short
    rw [List.drop_eq_nil_of_le (by omega : tokenPrefixChars.length ≤ n),
      List.nil_append] at h
    by_cases hm : n - 17 < (natToDigits i).length
    · cases hDd : (natToDigits i).drop (n - 17) with
      | nil =>
        have := congrArg List.length hDd
        simp only [List.length_drop, List.length_nil] at this
        omega
      | cons d rest =>
        rw [hDd] at h
        have h2 : ('_' :: '_' :: "PGK_CODE_BLOCK_".data) <+:
            (d :: (rest ++ ['_', '_'].drop (n - (17 + (natToDigits i).length)))) := h
        have h3 := (List.cons_prefix_cons.mp h2).1
        have hdmem : d ∈ natToDigits i := by
          have hmem : d ∈ (natToDigits i).drop (n - 17) := by
            rw [hDd]
            exact List.mem_cons_self d rest
          exact List.drop_subset _ _ hmem
        exact natToDigits_no_underscore i (h3 ▸ hdmem)
    · rw [List.drop_eq_nil_of_le (by omega : (natToDigits i).length ≤ n - 17),
        List.nil_append] at h
      have hle := h.length_le
      simp only [List.length_drop, hlen17] at hle
      have h2 : (['_', '_'] : List Char).length = 2 := rfl
      rw [h2] at hle
      omega

theorem digits_tail_prefix (k i : Nat) (R : List Char)
    (h : natToDigits k ++ ['_', '_'] <+: natToDigits i ++ ['_', '_'] ++ R) : k = i := by
  have hBpre : natToDigits i <+: natToDigits i ++ ['_', '_'] ++ R := by
    rw [List.append_assoc]
    exact List.prefix_append _ _
  have hApre : natToDigits k <+: natToDigits i ++ ['_', '_'] ++ R :=
    (List.prefix_append _ _).trans h
  rcases Nat.lt_trichotomy (natToDigits k).length (natToDigits i).length with hlt | heq | hgt
  · have h1 : natToDigits k ++ ['_'] <+: natToDigits k ++ ['_', '_'] := ⟨['_'], by simp⟩
    have h2 := h1.trans h
    have h4 : natToDigits k ++ ['_'] <+: natToDigits i :=
      List.prefix_of_prefix_length_le h2 hBpre (by
        simp only [List.length_append, List.length_singleton]
        omega)
    exact absurd (h4.subset (by simp)) (natToDigits_no_underscore i)
  · have h4 : natToDigits k <+: natToDigits i :=
      List.prefix_of_prefix_length_le hApre hBpre (by omega)
    exact natToDigits_inj k i (h4.eq_of_length heq)
  · have h1 : natToDigits i ++ ['_'] <+: natToDigits i ++ ['_', '_'] ++ R :=
      ⟨'_' :: R, by simp⟩
    have h4 : natToDigits i ++ ['_'] <+: natToDigits k :=
      List.prefix_of_prefix_length_le h1 hApre (by
        simp only [List.length_append, List.length_singleton]
        omega)
    exact absurd (h4.subset (by simp)) (natToDigits_no_underscore k)

theorem tpc_cons_form :
    tokenPrefixChars = '_' :: '_' :: 'P' :: 'G' :: 'K' :: '_' :: 'C' :: 'O' :: 'D' ::
      'E' :: '_' :: 'B' :: 'L' :: 'O' :: 'C' :: 'K' :: '_' :: [] := rfl

theorem token_suffix_not_prefix_render (blocks : List (List Char)) (k : Nat)
    (hblocks : ∀ b ∈ blocks, hasSub tokenPrefixChars b = false ∧
      ∃ mid, b = fenceChars ++ mid ++ fenceChars) :
    ∀ (segs : List Seg), (∀ p, Seg.prose p ∈ segs → '_' ∉ p) →
      (∀ i, Seg.tok i ∈ segs → i < blocks.length) →
      ∀ t, 1 ≤ t → t ≤ 16 →
        ¬ (tokenPrefixChars.drop t ++ natToDigits k ++ ['_', '_']) <+:
          renderSegs (stageRender blocks k) segs := by
  have hlen17 : tokenPrefixChars.length = 17 := by decide
  intro segs
  induction segs with
  | nil =>
    intro _ _ t h1 h16 hcon
    have hnil : tokenPrefixChars.drop t ++ natToDigits k ++ ['_', '_'] = [] :=
      List.prefix_nil.mp hcon
    have := congrArg List.length hnil
    simp only [List.length_append, List.length_drop, hlen17, List.length_nil,
      show (['_', '_'] : List Char).length = 2 from rfl] at this
    omega
  | cons sg rest ih =>
    intro hprose htoks t h1 h16 hcon
    have hptail : ∀ p, Seg.prose p ∈ rest → '_' ∉ p :=
      fun p hp => hprose p (List.mem_cons_of_mem sg hp)
    have httail : ∀ i, Seg.tok i ∈ rest → i < blocks.length :=
      fun i hi => htoks i (List.mem_cons_of_mem sg hi)
    cases sg with
    | prose p =>
      have hcon' : tokenPrefixChars.drop t ++ natToDigits k ++ ['_', '_'] <+:
          p ++ renderSegs (stageRender blocks k) rest := hcon
      by_cases hlen : (tokenPrefixChars.drop t ++ natToDigits k ++ ['_', '_']).length ≤
          p.length
      · have hwp := List.prefix_of_prefix_length_le hcon' (List.prefix_append p _) hlen
        exact hprose p (List.mem_cons_self _ _) (hwp.subset (by simp))
      · have hpw : p <+: tokenPrefixChars.drop t ++ natToDigits k ++ ['_', '_'] :=
          List.prefix_of_prefix_length_le (List.prefix_append p _) hcon' (by omega)
        by_cases hp16 : p.length ≤ 16 - t
        · have hz1 : p.length - (tokenPrefixChars.drop t).length = 0 := by
            simp only [List.length_drop, hlen17]
            omega
          have hz2 : p.length - (tokenPrefixChars.drop t ++ natToDigits k).length = 0 := by
            simp only [List.length_append, List.length_drop, hlen17]
            omega
          have hdropw : (tokenPrefixChars.drop t ++ natToDigits k ++ ['_', '_']).drop
              p.length = tokenPrefixChars.drop (t + p.length) ++ natToDigits k ++
              ['_', '_'] := by
            rw [List.drop_append_eq_append_drop, List.drop_append_eq_append_drop,
              hz1, hz2, List.drop_zero, List.drop_zero, List.drop_drop]
          have hsplit : tokenPrefixChars.drop t ++ natToDigits k ++ ['_', '_'] =
              p ++ (tokenPrefixChars.drop (t + p.length) ++ natToDigits k ++
                ['_', '_']) := by
            conv_lhs => rw [← List.take_append_drop p.length
              (tokenPrefixChars.drop t ++ natToDigits k ++ ['_', '_'])]
            rw [hdropw]
            congr 1
            exact (List.prefix_iff_eq_take.mp hpw).symm
          rw [hsplit] at hcon'
          have hrest := (List.prefix_append_right_inj p).mp hcon'
          exact ih hptail httail (t + p.length) (by omega) (by omega) hrest
        · have hfront : ∀ t', 1 ≤ t' → t' ≤ 16 → tokenPrefixChars.drop t' =
              (tokenPrefixChars.drop t').take (16 - t') ++ ['_'] := by decide
          have hf1 : (tokenPrefixChars.drop t).take (16 - t) ++ ['_'] <+:
              tokenPrefixChars.drop t ++ natToDigits k ++ ['_', '_'] := by
            conv_rhs => rw [hfront t h1 h16]
            exact ⟨natToDigits k ++ ['_', '_'], by simp⟩
          have hlentake : ((tokenPrefixChars.drop t).take (16 - t) ++ ['_']).length =
              17 - t := by
            simp only [List.length_append, List.length_take, List.length_drop,
              List.length_singleton, hlen17]
            omega
          have hfp : (tokenPrefixChars.drop t).take (16 - t) ++ ['_'] <+: p :=
            List.prefix_of_prefix_length_le (hf1.trans hcon')
              (List.prefix_append p _) (by rw [hlentake]; omega)
          exact hprose p (List.mem_cons_self _ _) (hfp.subset (by simp))
    | tok i =>
      by_cases hik : i < k
      · -- already-restored block piece: it starts with a backtick
        have hib : i < blocks.length := htoks i (List.mem_cons_self _ _)
        have hbmem : blocks.getD i [] ∈ blocks := by
          rw [List.getD_eq_getElem?_getD, List.getElem?_eq_getElem hib]
          exact List.getElem_mem _
        obtain ⟨hnosub, mid, hmid⟩ := hblocks _ hbmem
        have hcon' : tokenPrefixChars.drop t ++ natToDigits k ++ ['_', '_'] <+:
            blocks.getD i [] ++ renderSegs (stageRender blocks k) rest := by
          have hr : stageRender blocks k i = blocks.getD i [] := if_pos hik
          have hc2 : tokenPrefixChars.drop t ++ natToDigits k ++ ['_', '_'] <+:
              stageRender blocks k i ++ renderSegs (stageRender blocks k) rest := hcon
          rw [hr] at hc2
          exact hc2
        rw [hmid] at hcon'
        cases hw : tokenPrefixChars.drop t with
        | nil =>
          have := congrArg List.length hw
          simp only [List.length_drop, List.length_nil, hlen17] at this
          omega
        | cons c u' =>
          rw [hw] at hcon'
          have hfe : fenceChars = '`' :: '`' :: '`' :: [] := rfl
          rw [hfe] at hcon'
          simp only [List.cons_append, List.nil_append] at hcon'
          have hcd := (List.cons_prefix_cons.mp hcon').1
          have hcmem : c ∈ tokenPrefixChars :=
            List.drop_subset _ _ (hw ▸ List.mem_cons_self c u')
          rw [hcd] at hcmem
          exact absurd hcmem (by decide)
      · -- still-pending token piece
        have hcon' : tokenPrefixChars.drop t ++ natToDigits k ++ ['_', '_'] <+:
            tokenChars i ++ renderSegs (stageRender blocks k) rest := by
          have hr : stageRender blocks k i = tokenChars i := if_neg hik
          have hc2 : tokenPrefixChars.drop t ++ natToDigits k ++ ['_', '_'] <+:
              stageRender blocks k i ++ renderSegs (stageRender blocks k) rest := hcon
          rw [hr] at hc2
          exact hc2
        cases hw : tokenPrefixChars.drop t with
        | nil =>
          have := congrArg List.length hw
          simp only [List.length_drop, List.length_nil, hlen17] at this
          omega
        | cons c u' =>
          rw [hw] at hcon'
          rw [tokenChars_eq i, tpc_cons_form] at hcon'
          simp only [List.cons_append, List.nil_append] at hcon'
          have hcd := (List.cons_prefix_cons.mp hcon').1
          have hrest := (List.cons_prefix_cons.mp hcon').2
          have hu' : tokenPrefixChars.drop (t + 1) = u' := by
            rw [← List.drop_drop, hw]
            rfl
          have hpos : ∀ t', 1 ≤ t' → t' ≤ 16 →
              (tokenPrefixChars.drop t').headD ' ' = '_' →
              t' = 1 ∨ t' = 5 ∨ t' = 10 ∨ t' = 16 := by decide
          have hhead : (tokenPrefixChars.drop t).headD ' ' = '_' := by
            rw [hw]
            simp only [List.headD_cons]
            exact hcd
          rcases hpos t h1 h16 hhead with ht | ht | ht | ht
          · subst ht
            have hu2 : u' = 'P' :: 'G' :: 'K' :: '_' :: 'C' :: 'O' :: 'D' :: 'E' ::
                '_' :: 'B' :: 'L' :: 'O' :: 'C' :: 'K' :: '_' :: [] := by
              rw [← hu']
              rfl
            rw [hu2] at hrest
            simp only [List.cons_append] at hrest
            exact absurd (List.cons_prefix_cons.mp hrest).1 (by decide)
          · subst ht
            have hu2 : u' = 'C' :: 'O' :: 'D' :: 'E' :: '_' :: 'B' :: 'L' :: 'O' ::
                'C' :: 'K' :: '_' :: [] := by
              rw [← hu']
              rfl
            rw [hu2] at hrest
            simp only [List.cons_append] at hrest
            exact absurd (List.cons_prefix_cons.mp hrest).1 (by decide)
          · subst ht
            have hu2 : u' = 'B' :: 'L' :: 'O' :: 'C' :: 'K' :: '_' :: [] := by
              rw [← hu']
              rfl
            rw [hu2] at hrest
            simp only [List.cons_append] at hrest
            exact absurd (List.cons_prefix_cons.mp hrest).1 (by decide)
          · subst ht
            have hu2 : u' = [] := by
              rw [← hu']
              rfl
            rw [hu2] at hrest
            simp only [List.nil_append] at hrest
            cases hD : natToDigits k with
            | nil => exact absurd hD (natToDigits_ne_nil k)
            | cons d D' =>
              rw [hD] at hrest
              simp only [List.cons_append] at hrest
              have hd := (List.cons_prefix_cons.mp hrest).1
              exact natToDigits_no_underscore k (hD ▸ (hd ▸ List.mem_cons_self d D'))

theorem tpc_prefix_token (k : Nat) : tokenPrefixChars <+: tokenChars k :=
  ⟨natToDigits k ++ ['_', '_'], by rw [tokenChars_eq]; simp⟩

theorem tokenChars_ne_nil (k : Nat) : tokenChars k ≠ [] := by
  rw [tokenChars_eq]
  simp

theorem tokenChars_length (k : Nat) :
    (tokenChars k).length = 19 + (natToDigits k).length := by
  rw [tokenChars_eq]
  simp only [List.length_append, show tokenPrefixChars.length = 17 from by decide,
    show (['_', '_'] : List Char).length = 2 from rfl]
  omega

theorem tok_drop_small (k m : Nat) (hm : m ≤ 16) :
    (tokenChars k).drop m = tokenPrefixChars.drop m ++ natToDigits k ++ ['_', '_'] := by
  rw [tokenChars_eq, List.drop_append_eq_append_drop, List.drop_append_eq_append_drop]
  have hz1 : m - tokenPrefixChars.length = 0 := by
    rw [show tokenPrefixChars.length = 17 from by decide]
    omega
  have hz2 : m - (tokenPrefixChars ++ natToDigits k).length = 0 := by
    simp only [List.length_append, show tokenPrefixChars.length = 17 from by decide]
    omega
  rw [hz1, hz2, List.drop_zero, List.drop_zero]

theorem token_prefix_token (k i : Nat) (R : List Char)
    (h : tokenChars k <+: tokenChars i ++ R) : k = i := by
  rw [tokenChars_eq, tokenChars_eq] at h
  have h2 : tokenPrefixChars ++ (natToDigits k ++ ['_', '_']) <+:
      tokenPrefixChars ++ (natToDigits i ++ (['_', '_'] ++ R)) := by
    simpa only [List.append_assoc] using h
  have h3 := (List.prefix_append_right_inj tokenPrefixChars).mp h2
  rw [← List.append_assoc] at h3
  exact digits_tail_prefix k i R h3

theorem span_tail (pat u R : List Char) (hcon : pat <+: u ++ R) (hu : u <+: pat) :
    pat.drop u.length <+: R := by
  have htake : pat.take u.length = u := (List.prefix_iff_eq_take.mp hu).symm
  have hpu : pat = u ++ pat.drop u.length := by
    conv_lhs => rw [← List.take_append_drop u.length pat]
    rw [htake]
  rw [hpu] at hcon
  exact (List.prefix_append_right_inj u).mp hcon

theorem no_short_span (blocks : List (List Char)) (k : Nat)
    (hblocks : ∀ b ∈ blocks, hasSub tokenPrefixChars b = false ∧
      ∃ mid, b = fenceChars ++ mid ++ fenceChars)
    (rest : List Seg) (hptail : ∀ p, Seg.prose p ∈ rest → '_' ∉ p)
    (httail : ∀ i, Seg.tok i ∈ rest → i < blocks.length) (u : List Char)
    (hune : u ≠ []) (hlen : u.length ≤ 16)
    (hcon : tokenChars k <+: u ++ renderSegs (stageRender blocks k) rest) : False := by
  have hu : u <+: tokenChars k :=
    List.prefix_of_prefix_length_le (List.prefix_append _ _) hcon (by
      rw [tokenChars_length]
      omega)
  have hw := span_tail _ _ _ hcon hu
  rw [tok_drop_small k u.length hlen] at hw
  exact token_suffix_not_prefix_render blocks k hblocks rest hptail httail u.length
    (List.length_pos.mpr hune) hlen hw

theorem replaceSub_stage_step (blocks : List (List Char)) (k : Nat)
    (hblocks : ∀ b ∈ blocks, hasSub tokenPrefixChars b = false ∧
      ∃ mid, b = fenceChars ++ mid ++ fenceChars) :
    ∀ (segs : List Seg), (∀ p, Seg.prose p ∈ segs → '_' ∉ p) →
      (∀ i, Seg.tok i ∈ segs → i < blocks.length) →
      replaceSub (tokenChars k) (blocks.getD k [])
        (renderSegs (stageRender blocks k) segs) =
      renderSegs (stageRender blocks (k + 1)) segs := by
  have hlen17 : tokenPrefixChars.length = 17 := by decide
  intro segs
  induction segs with
  | nil =>
    intro _ _
    exact replaceSub_nil _ _
  | cons sg rest ih =>
    intro hprose htoks
    have hptail : ∀ p, Seg.prose p ∈ rest → '_' ∉ p :=
      fun p hp => hprose p (List.mem_cons_of_mem sg hp)
    have httail : ∀ i, Seg.tok i ∈ rest → i < blocks.length :=
      fun i hi => htoks i (List.mem_cons_of_mem sg hi)
    cases sg with
    | prose p =>
      show replaceSub (tokenChars k) (blocks.getD k [])
        (p ++ renderSegs (stageRender blocks k) rest) =
        p ++ renderSegs (stageRender blocks (k + 1)) rest
      have hocc : ∀ n, n < p.length → ¬ tokenChars k <+:
          (p.drop n ++ renderSegs (stageRender blocks k) rest) := by
        intro n hn hcon
        cases hd : p.drop n with
        | nil =>
          have := congrArg List.length hd
          simp only [List.length_drop, List.length_nil] at this
          omega
        | cons c rest2 =>
          rw [hd] at hcon
          rw [tokenChars_eq k, tpc_cons_form] at hcon
          simp only [List.cons_append, List.nil_append] at hcon
          have hc := (List.cons_prefix_cons.mp hcon).1
          have hcp : c ∈ p := List.drop_subset _ _ (hd ▸ List.mem_cons_self c rest2)
          rw [← hc] at hcp
          exact hprose p (List.mem_cons_self _ _) hcp
      rw [replaceSub_skip (tokenChars k) (blocks.getD k []) p _ hocc,
        ih hptail httail]
    | tok i =>
      by_cases hik : i < k
      · show replaceSub (tokenChars k) (blocks.getD k [])
          (stageRender blocks k i ++ renderSegs (stageRender blocks k) rest) =
          stageRender blocks (k + 1) i ++ renderSegs (stageRender blocks (k + 1)) rest
        rw [show stageRender blocks k i = blocks.getD i [] from if_pos hik,
          show stageRender blocks (k + 1) i = blocks.getD i [] from if_pos (by omega)]
        have hib : i < blocks.length := htoks i (List.mem_cons_self _ _)
        have hbmem : blocks.getD i [] ∈ blocks := by
          rw [List.getD_eq_getElem?_getD, List.getElem?_eq_getElem hib]
          exact List.getElem_mem _
        obtain ⟨hnosub, mid, hmid⟩ := hblocks _ hbmem
        have hocc : ∀ n, n < (blocks.getD i []).length → ¬ tokenChars k <+:
            ((blocks.getD i []).drop n ++ renderSegs (stageRender blocks k) rest) := by
          intro n hn hcon
          have hune : (blocks.getD i []).drop n ≠ [] := by
            intro hc
            have := congrArg List.length hc
            simp only [List.length_drop, List.length_nil] at this
            omega
          by_cases hul : 17 ≤ ((blocks.getD i []).drop n).length
          · have htp : tokenPrefixChars <+: (blocks.getD i []).drop n := by
              by_cases hpl : (tokenChars k).length ≤ ((blocks.getD i []).drop n).length
              · exact (tpc_prefix_token k).trans
                  (List.prefix_of_prefix_length_le hcon (List.prefix_append _ _) hpl)
              · have hu2 : (blocks.getD i []).drop n <+: tokenChars k :=
                  List.prefix_of_prefix_length_le (List.prefix_append _ _) hcon (by omega)
                exact List.prefix_of_prefix_length_le (tpc_prefix_token k) hu2
                  (by rw [hlen17]; omega)
            have hsub : hasSub tokenPrefixChars (blocks.getD i []) = true :=
              (hasSub_iff _ _).mpr ⟨n, htp⟩
            rw [hnosub] at hsub
            exact absurd hsub (by simp)
          · exact no_short_span blocks k hblocks rest hptail httail _ hune
              (by omega) hcon
        rw [replaceSub_skip (tokenChars k) (blocks.getD k []) (blocks.getD i []) _ hocc,
          ih hptail httail]
      · by_cases hik2 : i = k
        · subst hik2
          show replaceSub (tokenChars i) (blocks.getD i [])
            (stageRender blocks i i ++ renderSegs (stageRender blocks i) rest) =
            stageRender blocks (i + 1) i ++ renderSegs (stageRender blocks (i + 1)) rest
          rw [show stageRender blocks i i = tokenChars i from if_neg (by omega),
            show stageRender blocks (i + 1) i = blocks.getD i [] from if_pos (by omega),
            replaceSub_exact _ _ _ (tokenChars_ne_nil i), ih hptail httail]
        · show replaceSub (tokenChars k) (blocks.getD k [])
            (stageRender blocks k i ++ renderSegs (stageRender blocks k) rest) =
            stageRender blocks (k + 1) i ++ renderSegs (stageRender blocks (k + 1)) rest
          rw [show stageRender blocks k i = tokenChars i from if_neg hik,
            show stageRender blocks (k + 1) i = tokenChars i from if_neg (by omega)]
          have hocc : ∀ n, n < (tokenChars i).length → ¬ tokenChars k <+:
              ((tokenChars i).drop n ++ renderSegs (stageRender blocks k) rest) := by
            intro n hn hcon
            have hune : (tokenChars i).drop n ≠ [] := by
              intro hc
              have := congrArg List.length hc
              simp only [List.length_drop, List.length_nil] at this
              omega
            by_cases hul : 17 ≤ ((tokenChars i).drop n).length
            · have htp : tokenPrefixChars <+: (tokenChars i).drop n := by
                by_cases hpl : (tokenChars k).length ≤ ((tokenChars i).drop n).length
                · exact (tpc_prefix_token k).trans
                    (List.prefix_of_prefix_length_le hcon (List.prefix_append _ _) hpl)
                · have hu2 : (tokenChars i).drop n <+: tokenChars k :=
                    List.prefix_of_prefix_length_le (List.prefix_append _ _) hcon
                      (by omega)
                  exact List.prefix_of_prefix_length_le (tpc_prefix_token k) hu2
                    (by rw [hlen17]; omega)
              have hn0 := tpc_prefix_drop_token i n htp
              subst hn0
              rw [List.drop_zero] at hcon
              exact hik2 (token_prefix_token k i _ hcon).symm
            · exact no_short_span blocks k hblocks rest hptail httail _ hune
                (by omega) hcon
          rw [replaceSub_skip (tokenChars k) (blocks.getD k []) (tokenChars i) _ hocc,
            ih hptail httail]

theorem splitAtSub_length (pat : List Char) : ∀ (s' pre post : List Char),
    splitAtSub pat s' = some (pre, post) → post.length + pat.length ≤ s'.length := by
  intro s'
  induction s' with
  | nil => intro pre post h; simp [splitAtSub] at h
  | cons c cs ih =>
    intro pre post h
    simp only [splitAtSub] at h
    split at h
    · rename_i hp
      simp only [Option.some.injEq, Prod.mk.injEq] at h
      have hle : pat.length ≤ (c :: cs).length :=
        (List.isPrefixOf_iff_prefix.mp hp).length_le
      have hpl : (c :: cs).drop pat.length = post := h.2
      subst hpl
      simp only [List.length_drop]
      omega
    · cases hsplit : splitAtSub pat cs with
      | none => rw [hsplit] at h; exact absurd h (by simp)
      | some pr =>
        rw [hsplit] at h
        obtain ⟨pre', post'⟩ := pr
        simp only [Option.some.injEq, Prod.mk.injEq] at h
        have hkey := ih pre' post' hsplit
        have hpl : post' = post := h.2
        subst hpl
        simp only [List.length_cons]
        omega

theorem protectCodeBlocks_nil (idx : Nat) : protectCodeBlocks [] idx = ([], []) := by
  rw [protectCodeBlocks.eq_def]
  split
  · rfl
  · rename_i pre rest h1
    simp [splitAtSub] at h1

theorem protect_struct : ∀ (N : Nat) (s : List Char), s.length ≤ N →
    ∀ (idx j : Nat) (tb : List Char × List Char),
      (protectCodeBlocks s idx).2[j]? = some tb →
      tb.1 = tokenChars (idx + j) ∧ ∃ mid, tb.2 = fenceChars ++ mid ++ fenceChars := by
  intro N
  induction N with
  | zero =>
    intro s hs idx j tb h
    have hs0 : s = [] := List.eq_nil_of_length_eq_zero (by omega)
    subst hs0
    rw [protectCodeBlocks_nil] at h
    simp at h
  | succ N ihN =>
    intro s hs idx j tb h
    rw [protectCodeBlocks.eq_def] at h
    split at h
    · simp at h
    · rename_i pre rest h1
      split at h
      · simp at h
      · rename_i mid rest2 h2
        cases j with
        | zero =>
          simp only [List.getElem?_cons_zero, Option.some.injEq] at h
          refine ⟨by rw [← h]; rfl, mid, by rw [← h]⟩
        | succ j' =>
          simp only [List.getElem?_cons_succ] at h
          have hstep : (protectCodeBlocks rest2 (idx + 1)).2[j']? = some tb := h
          have hk1 := splitAtSub_length fenceChars s pre rest h1
          have hk2 := splitAtSub_length fenceChars rest mid rest2 h2
          have hf3 : fenceChars.length = 3 := by decide
          have hlen : rest2.length ≤ N := by omega
          have hres := ihN rest2 hlen (idx + 1) j' tb hstep
          exact ⟨by rw [hres.1]; congr 1; omega, hres.2⟩

theorem renderSegs_congr (f g : Nat → List Char) : ∀ (segs : List Seg),
    (∀ i, Seg.tok i ∈ segs → f i = g i) →
    renderSegs f segs = renderSegs g segs := by
  intro segs
  induction segs with
  | nil => intro _; rfl
  | cons sg rest ih =>
    intro hfg
    cases sg with
    | prose p =>
      show p ++ renderSegs f rest = p ++ renderSegs g rest
      rw [ih (fun i hi => hfg i (List.mem_cons_of_mem _ hi))]
    | tok i =>
      show f i ++ renderSegs f rest = g i ++ renderSegs g rest
      rw [hfg i (List.mem_cons_self _ _),
        ih (fun i2 hi => hfg i2 (List.mem_cons_of_mem _ hi))]

theorem renderSegs_tok_split (f : Nat → List Char) (j : Nat) : ∀ (segs : List Seg),
    Seg.tok j ∈ segs → ∃ A B, renderSegs f segs = A ++ (f j ++ B) := by
  intro segs
  induction segs with
  | nil => intro h; simp at h
  | cons sg rest ih =>
    intro hmem
    rcases List.mem_cons.mp hmem with heq | htail
    · refine ⟨[], renderSegs f rest, ?_⟩
      rw [← heq]
      rfl
    · obtain ⟨A, B, hAB⟩ := ih htail
      cases sg with
      | prose p =>
        refine ⟨p ++ A, B, ?_⟩
        show p ++ renderSegs f rest = (p ++ A) ++ (f j ++ B)
        rw [hAB, List.append_assoc]
      | tok i =>
        refine ⟨f i ++ A, B, ?_⟩
        show f i ++ renderSegs f rest = (f i ++ A) ++ (f j ++ B)
        rw [hAB, List.append_assoc]

theorem restore_reps (blocks : List (List Char))
    (hblocks : ∀ b ∈ blocks, hasSub tokenPrefixChars b = false ∧
      ∃ mid, b = fenceChars ++ mid ++ fenceChars)
    (segs : List Seg) (hprose : ∀ p, Seg.prose p ∈ segs → '_' ∉ p)
    (htoks : ∀ i, Seg.tok i ∈ segs → i < blocks.length) :
    ∀ (reps : List (List Char × List Char)) (k : Nat),
      (∀ j, j < reps.length → reps[j]? =
        some (tokenChars (k + j), blocks.getD (k + j) [])) →
      restoreCodeBlocks (renderSegs (stageRender blocks k) segs) reps =
      renderSegs (stageRender blocks (k + reps.length)) segs := by
  intro reps
  induction reps with
  | nil => intro k _; rfl
  | cons tb rest ih =>
    intro k hj
    have h0 := hj 0 (by simp)
    simp only [List.getElem?_cons_zero, Option.some.injEq] at h0
    subst h0
    show restoreCodeBlocks (replaceSub (tokenChars k) (blocks.getD k [])
      (renderSegs (stageRender blocks k) segs)) rest = _
    rw [replaceSub_stage_step blocks k hblocks segs hprose htoks]
    have hjrest : ∀ j2, j2 < rest.length → rest[j2]? =
        some (tokenChars ((k + 1) + j2), blocks.getD ((k + 1) + j2) []) := by
      intro j2 hj2
      have hh := hj (j2 + 1) (by simp only [List.length_cons]; omega)
      simp only [List.getElem?_cons_succ] at hh
      rw [show k + (j2 + 1) = (k + 1) + j2 from by omega] at hh
      exact hh
    rw [ih (k + 1) hjrest,
      show (k + 1) + rest.length = k + (rest.length + 1) from by omega]
    rfl

theorem protectCodeBlocks_no_fence (s : List Char) (idx : Nat)
    (h1 : splitAtSub fenceChars s = none) : protectCodeBlocks s idx = (s, []) := by
  rw [protectCodeBlocks.eq_def]
  split
  · rfl
  · rename_i pre rest h1'
    rw [h1] at h1'
    exact absurd h1' (by simp)

theorem protectCodeBlocks_cons (s pre rest mid rest2 : List Char) (idx : Nat)
    (h1 : splitAtSub fenceChars s = some (pre, rest))
    (h2 : splitAtSub fenceChars rest = some (mid, rest2)) :
    protectCodeBlocks s idx =
      (pre ++ tokenChars idx ++ (protectCodeBlocks rest2 (idx + 1)).1,
        (tokenChars idx, fenceChars ++ mid ++ fenceChars) ::
          (protectCodeBlocks rest2 (idx + 1)).2) := by
  rw [protectCodeBlocks.eq_def]
  split
  · rename_i h1'
    rw [h1] at h1'
    exact absurd h1' (by simp)
  · rename_i pre' rest' h1'
    rw [h1] at h1'
    simp only [Option.some.injEq, Prod.mk.injEq] at h1'
    obtain ⟨hp, hr⟩ := h1'
    subst hp
    subst hr
    split
    · rename_i h2'
      rw [h2] at h2'
      exact absurd h2' (by simp)
    · rename_i mid' rest2' h2'
      rw [h2] at h2'
      simp only [Option.some.injEq, Prod.mk.injEq] at h2'
      obtain ⟨hm, hr2⟩ := h2'
      subst hm
      subst hr2
      rfl

/-- C6: with the collaborator's view of the oracle output as a list of
prose pieces and preserved placeholder tokens — prose rewritten
arbitrarily but containing no underscore, every token index in range,
and every protected block mentioned — and for blocks that do not
themselves contain the placeholder prefix "__PGK_CODE_BLOCK_" (and are
dollar-free, so literal splicing agrees with JS `String.replace`),
restoring after protecting is exactly the substitution of every token
by its original block: the final text is the rendering with each token
replaced by its block, and in particular every protected fenced code
block appears byte-identical in the final output. -/
theorem protectRestore_spec (src : List Char) (segs : List Seg)
    (hprose : ∀ p, Seg.prose p ∈ segs → '_' ∉ p)
    (htoks : ∀ i, Seg.tok i ∈ segs → i < (protectCodeBlocks src 0).2.length)
    (hsafe : ∀ tb ∈ (protectCodeBlocks src 0).2,
      hasSub tokenPrefixChars tb.2 = false ∧ '$' ∉ tb.2)
    (hall : ∀ j, j < (protectCodeBlocks src 0).2.length → Seg.tok j ∈ segs) :
    restoreCodeBlocks (renderSegs (fun i => tokenChars i) segs)
        (protectCodeBlocks src 0).2 =
      renderSegs (fun i =>
        ((protectCodeBlocks src 0).2.map Prod.snd).getD i []) segs ∧
    ∀ tb ∈ (protectCodeBlocks src 0).2,
      hasSub tb.2 (restoreCodeBlocks (renderSegs (fun i => tokenChars i) segs)
        (protectCodeBlocks src 0).2) = true := by
  have hstruct : ∀ (j : Nat) (tb : List Char × List Char),
      (protectCodeBlocks src 0).2[j]? = some tb →
      tb.1 = tokenChars j ∧ ∃ mid, tb.2 = fenceChars ++ mid ++ fenceChars := by
    intro j tb h
    have hres := protect_struct src.length src le_rfl 0 j tb h
    rw [Nat.zero_add] at hres
    exact hres
  have hmemidx : ∀ tb ∈ (protectCodeBlocks src 0).2,
      ∃ j : Nat, (protectCodeBlocks src 0).2[j]? = some tb := by
    intro tb htb
    obtain ⟨j, hjlt, hjv⟩ := List.mem_iff_getElem.mp htb
    refine ⟨j, ?_⟩
    rw [List.getElem?_eq_getElem hjlt, hjv]
  have hblocks : ∀ b ∈ (protectCodeBlocks src 0).2.map Prod.snd,
      hasSub tokenPrefixChars b = false ∧
      ∃ mid, b = fenceChars ++ mid ++ fenceChars := by
    intro b hb
    obtain ⟨tb, htb, hbe⟩ := List.mem_map.mp hb
    subst hbe
    obtain ⟨j, hjv⟩ := hmemidx tb htb
    exact ⟨(hsafe tb htb).1, (hstruct j tb hjv).2⟩
  have htoks' : ∀ i, Seg.tok i ∈ segs →
      i < ((protectCodeBlocks src 0).2.map Prod.snd).length := by
    intro i hi
    rw [List.length_map]
    exact htoks i hi
  have hgetD : ∀ (j : Nat) (tb : List Char × List Char),
      (protectCodeBlocks src 0).2[j]? = some tb →
      ((protectCodeBlocks src 0).2.map Prod.snd).getD j [] = tb.2 := by
    intro j tb h
    rw [List.getD_eq_getElem?_getD, List.getElem?_map, h]
    rfl
  have hj : ∀ j, j < (protectCodeBlocks src 0).2.length →
      (protectCodeBlocks src 0).2[j]? = some (tokenChars (0 + j),
        ((protectCodeBlocks src 0).2.map Prod.snd).getD (0 + j) []) := by
    intro j hjlt
    have hv : (protectCodeBlocks src 0).2[j]? =
        some ((protectCodeBlocks src 0).2[j]) := List.getElem?_eq_getElem hjlt
    have hs := hstruct j _ hv
    rw [hv, Nat.zero_add, hgetD j _ hv]
    rw [← hs.1]
  have hmain := restore_reps ((protectCodeBlocks src 0).2.map Prod.snd) hblocks segs
    hprose htoks' (protectCodeBlocks src 0).2 0 hj
  have hrender0 : renderSegs (fun i => tokenChars i) segs =
      renderSegs (stageRender ((protectCodeBlocks src 0).2.map Prod.snd) 0) segs := by
    refine renderSegs_congr _ _ segs (fun i _ => ?_)
    show tokenChars i = if i < 0 then _ else tokenChars i
    rw [if_neg (Nat.not_lt_zero i)]
  have hrenderN :
      renderSegs (stageRender ((protectCodeBlocks src 0).2.map Prod.snd)
        (0 + (protectCodeBlocks src 0).2.length)) segs =
      renderSegs (fun i =>
        ((protectCodeBlocks src 0).2.map Prod.snd).getD i []) segs := by
    refine renderSegs_congr _ _ segs (fun i hi => ?_)
    show (if i < 0 + (protectCodeBlocks src 0).2.length then _ else _) = _
    rw [if_pos (by rw [Nat.zero_add]; exact htoks i hi)]
  have hfirst : restoreCodeBlocks (renderSegs (fun i => tokenChars i) segs)
      (protectCodeBlocks src 0).2 =
      renderSegs (fun i =>
        ((protectCodeBlocks src 0).2.map Prod.snd).getD i []) segs := by
    rw [hrender0, hmain, hrenderN]
  refine ⟨hfirst, ?_⟩
  intro tb htb
  rw [hfirst]
  obtain ⟨j, hjv⟩ := hmemidx tb htb
  have hjlt : j < (protectCodeBlocks src 0).2.length := by
    by_contra hc
    rw [List.getElem?_eq_none (by omega)] at hjv
    exact absurd hjv (by simp)
  obtain ⟨A, B, hAB⟩ := renderSegs_tok_split
    (fun i => ((protectCodeBlocks src 0).2.map Prod.snd).getD i []) j segs
    (hall j hjlt)
  rw [hAB, hgetD j tb hjv]
  rw [hasSub_iff]
  exact ⟨A.length, by rw [List.drop_left]; exact List.prefix_append _ _⟩

theorem protectRestore_spec_witness :
    (∀ p, Seg.prose p ∈ [Seg.prose "Hello ".data, Seg.tok 0] → '_' ∉ p) ∧
    (restoreCodeBlocks (renderSegs (fun i => tokenChars i)
        [Seg.prose "Hello ".data, Seg.tok 0])
        (protectCodeBlocks "a```b```c".data 0).2 =
      renderSegs (fun i =>
        ((protectCodeBlocks "a```b```c".data 0).2.map Prod.snd).getD i [])
        [Seg.prose "Hello ".data, Seg.tok 0] ∧
    ∀ tb ∈ (protectCodeBlocks "a```b```c".data 0).2,
      hasSub tb.2 (restoreCodeBlocks (renderSegs (fun i => tokenChars i)
        [Seg.prose "Hello ".data, Seg.tok 0])
        (protectCodeBlocks "a```b```c".data 0).2) = true) := by
  have e1 : splitAtSub fenceChars "a```b```c".data =
      some ("a".data, "b```c".data) := by decide
  have e2 : splitAtSub fenceChars "b```c".data = some ("b".data, "c".data) := by decide
  have e3 : splitAtSub fenceChars "c".data = none := by decide
  have heq : protectCodeBlocks "a```b```c".data 0 =
      ("a".data ++ tokenChars 0 ++ "c".data,
        [(tokenChars 0, fenceChars ++ "b".data ++ fenceChars)]) := by
    rw [protectCodeBlocks_cons _ _ _ _ _ 0 e1 e2,
      show (0 : Nat) + 1 = 1 from rfl,
      protectCodeBlocks_no_fence "c".data 1 e3]
  have hpr : ∀ p, Seg.prose p ∈ [Seg.prose "Hello ".data, Seg.tok 0] → '_' ∉ p := by
    intro p hp
    simp only [List.mem_cons, List.not_mem_nil, or_false] at hp
    rcases hp with hp | hp
    · have hpe : p = "Hello ".data := by
        injection hp
      rw [hpe]
      decide
    · exact absurd hp (by simp)
  refine ⟨hpr, protectRestore_spec "a```b```c".data
    [Seg.prose "Hello ".data, Seg.tok 0] hpr ?_ ?_ ?_⟩
  · intro i hi
    simp only [List.mem_cons, List.not_mem_nil, or_false] at hi
    rcases hi with hi | hi
    · exact absurd hi (by simp)
    · have hie : i = 0 := by injection hi
      rw [hie, heq]
      simp
  · intro tb htb
    rw [heq] at htb
    simp only [List.mem_cons, List.not_mem_nil, or_false] at htb
    rw [htb]
    constructor
    · decide
    · decide
  · intro j hj
    rw [heq] at hj
    simp only [List.length_cons, List.length_nil] at hj
    have hje : j = 0 := by omega
    rw [hje]
    simp

theorem natToDigits_zero : natToDigits 0 = ['0'] := by
  rw [natToDigits.eq_def, if_pos (by norm_num : (0 : Nat) < 10)]
  decide

theorem natToDigits_one : natToDigits 1 = ['1'] := by
  rw [natToDigits.eq_def, if_pos (by norm_num : (1 : Nat) < 10)]
  decide

theorem tokenChars_zero : tokenChars 0 = "__PGK_CODE_BLOCK_0__".data := by
  rw [tokenChars_eq, natToDigits_zero]
  decide

theorem tokenChars_one : tokenChars 1 = "__PGK_CODE_BLOCK_1__".data := by
  rw [tokenChars_eq, natToDigits_one]
  decide

/-- C6 counterexample: the protect/restore round-trip is NOT the
identity on code blocks for every source and token-preserving oracle
output. A code block whose text already contains a string of
placeholder-token shape is corrupted: token replacement is a global
string substitution performed sequentially, so a later token is also
replaced inside the already-restored earlier block. Here the oracle
output is the protected text itself (all tokens preserved, prose
untouched), and the first protected block does not appear anywhere in
the restored output. -/
theorem protectRestore_claim_false :
    ∃ (src : List Char) (tb : List Char × List Char),
      tb ∈ (protectCodeBlocks src 0).2 ∧
      hasSub tb.2 (restoreCodeBlocks (protectCodeBlocks src 0).1
        (protectCodeBlocks src 0).2) = false := by
  have e1 : splitAtSub fenceChars "```__PGK_CODE_BLOCK_1__``` ```c```".data =
      some ([], "__PGK_CODE_BLOCK_1__``` ```c```".data) := by decide
  have e2 : splitAtSub fenceChars "__PGK_CODE_BLOCK_1__``` ```c```".data =
      some ("__PGK_CODE_BLOCK_1__".data, " ```c```".data) := by decide
  have e3 : splitAtSub fenceChars " ```c```".data =
      some (" ".data, "c```".data) := by decide
  have e4 : splitAtSub fenceChars "c```".data = some ("c".data, []) := by decide
  have e5 : splitAtSub fenceChars [] = none := rfl
  have heq : protectCodeBlocks "```__PGK_CODE_BLOCK_1__``` ```c```".data 0 =
      ([] ++ tokenChars 0 ++ (" ".data ++ tokenChars 1 ++ []),
        [(tokenChars 0, fenceChars ++ "__PGK_CODE_BLOCK_1__".data ++ fenceChars),
          (tokenChars 1, fenceChars ++ "c".data ++ fenceChars)]) := by
    rw [protectCodeBlocks_cons _ _ _ _ _ 0 e1 e2,
      show (0 : Nat) + 1 = 1 from rfl,
      protectCodeBlocks_cons _ _ _ _ _ 1 e3 e4,
      show (1 : Nat) + 1 = 2 from rfl,
      protectCodeBlocks_nil 2]
  refine ⟨"```__PGK_CODE_BLOCK_1__``` ```c```".data,
    (tokenChars 0, fenceChars ++ "__PGK_CODE_BLOCK_1__".data ++ fenceChars), ?_, ?_⟩
  · rw [heq]
    exact List.mem_cons_self _ _
  · rw [heq, tokenChars_zero, tokenChars_one]
    have hb0 : fenceChars ++ "__PGK_CODE_BLOCK_1__".data ++ fenceChars =
        "```__PGK_CODE_BLOCK_1__```".data := by decide
    have hb1 : fenceChars ++ "c".data ++ fenceChars = "```c```".data := by decide
    have hT : [] ++ "__PGK_CODE_BLOCK_0__".data ++
        (" ".data ++ "__PGK_CODE_BLOCK_1__".data ++ []) =
        "__PGK_CODE_BLOCK_0__".data ++ " __PGK_CODE_BLOCK_1__".data := by decide
    rw [hb0, hb1, hT]
    show hasSub "```__PGK_CODE_BLOCK_1__```".data
      (replaceSub "__PGK_CODE_BLOCK_1__".data "```c```".data
        (replaceSub "__PGK_CODE_BLOCK_0__".data "```__PGK_CODE_BLOCK_1__```".data
          ("__PGK_CODE_BLOCK_0__".data ++ " __PGK_CODE_BLOCK_1__".data))) = false
    rw [replaceSub_exact "__PGK_CODE_BLOCK_0__".data "```__PGK_CODE_BLOCK_1__```".data
        " __PGK_CODE_BLOCK_1__".data (by decide),
      replaceSub_no_occ "__PGK_CODE_BLOCK_0__".data "```__PGK_CODE_BLOCK_1__```".data
        " __PGK_CODE_BLOCK_1__".data (by decide)]
    have hsplit2 : "```__PGK_CODE_BLOCK_1__```".data ++ " __PGK_CODE_BLOCK_1__".data =
        "```".data ++ ("__PGK_CODE_BLOCK_1__".data ++ ("``` ".data ++
          ("__PGK_CODE_BLOCK_1__".data ++ []))) := by decide
    rw [hsplit2,
      replaceSub_skip "__PGK_CODE_BLOCK_1__".data "```c```".data "```".data
        ("__PGK_CODE_BLOCK_1__".data ++ ("``` ".data ++
          ("__PGK_CODE_BLOCK_1__".data ++ []))) (by decide),
      replaceSub_exact "__PGK_CODE_BLOCK_1__".data "```c```".data
        ("``` ".data ++ ("__PGK_CODE_BLOCK_1__".data ++ [])) (by decide),
      replaceSub_skip "__PGK_CODE_BLOCK_1__".data "```c```".data "``` ".data
        ("__PGK_CODE_BLOCK_1__".data ++ []) (by decide),
      replaceSub_exact "__PGK_CODE_BLOCK_1__".data "```c```".data [] (by decide),
      replaceSub_nil]
    decide

end Polyglot
